import Mathlib

/-!
Verification of core claims about the repository's `MutableRepo`, `IdIndex`
and revset optimizer, against a shallow embedding of `src/lib/src/repo.rs`
and `src/lib/src/revset.rs`.  Identifiers are embedded as lists of hex
digits (nibbles); the byte-string comparison used by the Rust code agrees
with lexicographic comparison of nibble lists for the even-length ids the
index stores.
-/

namespace JJSpec

/-- A key of the id index: an id rendered as its list of hex digits. -/
abbrev Key := List Nat

/-- Strict lexicographic order on keys, embedding byte-string `<`. -/
def lexLt : Key → Key → Bool
  | [], [] => false
  | [], _ :: _ => true
  | _ :: _, [] => false
  | a :: as, b :: bs => decide (a < b) || (decide (a = b) && lexLt as bs)

theorem lexLt_irrefl (a : Key) : lexLt a a = false := by
  induction a with
  | nil => rfl
  | cons x xs ih => simp [lexLt, ih]

theorem lexLt_trichotomy (a b : Key) :
    lexLt a b = true ∨ a = b ∨ lexLt b a = true := by
  induction a generalizing b with
  | nil =>
    cases b with
    | nil => exact Or.inr (Or.inl rfl)
    | cons y ys => exact Or.inl rfl
  | cons x xs ih =>
    cases b with
    | nil => exact Or.inr (Or.inr rfl)
    | cons y ys =>
      rcases Nat.lt_trichotomy x y with h | h | h
      · exact Or.inl (by simp [lexLt, h])
      · subst h
        rcases ih ys with h2 | h2 | h2
        · exact Or.inl (by simp [lexLt, h2])
        · exact Or.inr (Or.inl (by rw [h2]))
        · exact Or.inr (Or.inr (by simp [lexLt, h2]))
      · exact Or.inr (Or.inr (by simp [lexLt, h]))

theorem lexLt_trans {a b c : Key} (h1 : lexLt a b = true) (h2 : lexLt b c = true) :
    lexLt a c = true := by
  induction a generalizing b c with
  | nil =>
    cases b with
    | nil => simp [lexLt] at h1
    | cons y ys =>
      cases c with
      | nil => simp [lexLt] at h2
      | cons z zs => rfl
  | cons x xs ih =>
    cases b with
    | nil => simp [lexLt] at h1
    | cons y ys =>
      cases c with
      | nil => simp [lexLt] at h2
      | cons z zs =>
        simp only [lexLt, Bool.or_eq_true, Bool.and_eq_true, decide_eq_true_eq] at h1 h2 ⊢
        rcases h1 with h1 | ⟨rfl, h1⟩
        · rcases h2 with h2 | ⟨rfl, h2⟩
          · exact Or.inl (Nat.lt_trans h1 h2)
          · exact Or.inl h1
        · rcases h2 with h2 | ⟨rfl, h2⟩
          · exact Or.inl h2
          · exact Or.inr ⟨rfl, ih h1 h2⟩

theorem lexLt_asymm {a b : Key} (h : lexLt a b = true) : lexLt b a = false := by
  by_contra hc
  have hba : lexLt b a = true := by
    cases hab : lexLt b a with
    | true => rfl
    | false => exact absurd hab hc
  have := lexLt_trans h hba
  rw [lexLt_irrefl] at this
  exact Bool.false_ne_true this

theorem lexLe_of_not_lt {a b : Key} (h : lexLt a b = false) :
    a = b ∨ lexLt b a = true := by
  rcases lexLt_trichotomy a b with h1 | h1 | h1
  · rw [h1] at h; exact absurd h (by simp)
  · exact Or.inl h1
  · exact Or.inr h1

/-- Transitivity of the non-strict order `lexLt _ _ = false` (read as `≥`). -/
theorem lexLe_trans {a b c : Key} (h1 : lexLt b a = false) (h2 : lexLt c b = false) :
    lexLt c a = false := by
  rcases lexLe_of_not_lt h1 with rfl | h1
  · exact h2
  · rcases lexLe_of_not_lt h2 with rfl | h2
    · exact (lexLt_asymm h1)
    · exact lexLt_asymm (lexLt_trans h1 h2)

theorem lexLt_eq_false_of_prefix {p k : Key} (h : p <+: k) : lexLt k p = false := by
  induction p generalizing k with
  | nil =>
    cases k with
    | nil => rfl
    | cons x xs => rfl
  | cons a ps ih =>
    rcases h with ⟨t, ht⟩
    subst ht
    simp only [lexLt, List.cons_append]
    have : lexLt (ps ++ t) ps = false := ih ⟨t, rfl⟩
    simp [this, Nat.lt_irrefl]

/-- Once a sorted scan has passed a non-matching key at or above the prefix,
no later key can match the prefix. -/
theorem not_prefix_of_ge_nonmatch {p b c : Key} (hge : lexLt b p = false)
    (hnm : ¬ p <+: b) (hbc : lexLt c b = false) : ¬ p <+: c := by
  induction p generalizing b c with
  | nil => exact absurd ⟨b, rfl⟩ hnm
  | cons x ps ih =>
    cases b with
    | nil => simp [lexLt] at hge
    | cons y bs =>
      cases c with
      | nil => simp [lexLt] at hbc
      | cons z cs =>
        intro hpc
        rcases hpc with ⟨t, ht⟩
        injection ht with h1 h2
        subst h1
        simp only [lexLt, Bool.or_eq_false_iff, Bool.and_eq_false_iff,
          decide_eq_false_iff_not] at hge hbc
        obtain ⟨hxy, hge2⟩ := hge
        obtain ⟨hzy, hbc2⟩ := hbc
        have hyx : y = x := by
          rcases hbc2 with h | h
          · omega
          · omega
        subst hyx
        have hbs : lexLt bs ps = false := by
          rcases hge2 with h | h
          · omega
          · exact h
        have hcs : lexLt cs bs = false := by
          rcases hbc2 with h | h
          · omega
          · exact h
        have hnps : ¬ ps <+: bs := by
          intro hp
          rcases hp with ⟨u, hu⟩
          exact hnm ⟨u, by rw [List.cons_append, hu]⟩
        exact ih hbs hnps hcs ⟨t, h2⟩

/-- Number of common leading hex digits of two keys.
Modelled from the spec: `backend::common_hex_len` (the `backend` module is
not under `src/`): the length of the longest common prefix, in hex digits. -/
def commonLen : Key → Key → Nat
  | a :: as, b :: bs => if a = b then commonLen as bs + 1 else 0
  | _, _ => 0

theorem commonLen_comm (a b : Key) : commonLen a b = commonLen b a := by
  induction a generalizing b with
  | nil => cases b <;> rfl
  | cons x xs ih =>
    cases b with
    | nil => rfl
    | cons y ys =>
      by_cases h : x = y
      · subst h; simp [commonLen, ih]
      · have h2 : ¬ y = x := fun hh => h hh.symm
        simp [commonLen, h, h2]

theorem take_eq_of_commonLen {a b : Key} {n : Nat} (h : n ≤ commonLen a b) :
    a.take n = b.take n := by
  induction n generalizing a b with
  | zero => simp
  | succ m ih =>
    cases a with
    | nil => cases b <;> simp [commonLen] at h
    | cons x xs =>
      cases b with
      | nil => simp [commonLen] at h
      | cons y ys =>
        by_cases hxy : x = y
        · subst hxy
          simp only [commonLen, if_pos rfl] at h
          simp [List.take_succ_cons, ih (Nat.le_of_succ_le_succ h)]
        · simp [commonLen, hxy] at h

theorem commonLen_ge_of_take_eq {a b : Key} {n : Nat} (hne : a ≠ b)
    (h : a.take n = b.take n) : n ≤ commonLen a b := by
  induction n generalizing a b with
  | zero => exact Nat.zero_le _
  | succ m ih =>
    cases a with
    | nil =>
      cases b with
      | nil => exact absurd rfl hne
      | cons y ys => simp at h
    | cons x xs =>
      cases b with
      | nil => simp at h
      | cons y ys =>
        simp only [List.take_succ_cons, List.cons.injEq] at h
        obtain ⟨rfl, h2⟩ := h
        have hxs : xs ≠ ys := fun hh => hne (by rw [hh])
        simp only [commonLen, if_pos rfl]
        exact Nat.succ_le_succ (ih hxs h2)

/-- The common-prefix length against a fixed key is monotone along the sorted
order: if `a ≤ b ≤ c` then `commonLen a c ≤ commonLen b c` and
`commonLen a c ≤ commonLen a b`. -/
theorem commonLen_mono {a b c : Key} (h1 : lexLt b a = false) (h2 : lexLt c b = false) :
    commonLen a c ≤ commonLen b c ∧ commonLen a c ≤ commonLen a b := by
  induction a generalizing b c with
  | nil => constructor <;> simp [commonLen]
  | cons x as ih =>
    cases c with
    | nil =>
      constructor <;> simp [commonLen]
    | cons z cs =>
      by_cases hxz : x = z
      · subst hxz
        cases b with
        | nil => simp [lexLt] at h1
        | cons y bs =>
          simp only [lexLt, Bool.or_eq_false_iff, Bool.and_eq_false_iff,
            decide_eq_false_iff_not] at h1 h2
          obtain ⟨hyx, h1r⟩ := h1
          obtain ⟨hxy, h2r⟩ := h2
          have hyx2 : y = x := by omega
          subst hyx2
          have hbs : lexLt bs as = false := by
            rcases h1r with h | h
            · omega
            · exact h
          have hcs : lexLt cs bs = false := by
            rcases h2r with h | h
            · omega
            · exact h
          have := ih hbs hcs
          constructor
          · simpa [commonLen] using Nat.succ_le_succ this.1
          · simpa [commonLen] using Nat.succ_le_succ this.2
      · constructor <;> simp [commonLen, hxz]

theorem commonLen_le_length (a b : Key) : commonLen a b ≤ a.length := by
  induction a generalizing b with
  | nil => simp [commonLen]
  | cons x xs ih =>
    cases b with
    | nil => simp [commonLen]
    | cons y ys =>
      by_cases h : x = y
      · simpa [commonLen, h] using Nat.succ_le_succ (ih ys)
      · simp [commonLen, h]

/-! ### The id index (`IdIndex` in `src/lib/src/repo.rs`)

An `IdIndex<K, V>` is a sequence of `(key, value)` pairs sorted by key;
duplicate keys are permitted.  We embed values as `Nat`. -/

/-- One `(key, value)` entry of the id index. -/
abbrev IdEntry := Key × Nat

/-- The sorted entry table backing `IdIndex` (`IdIndex::from_vec` sorts it). -/
abbrev IdTable := List IdEntry

/-- The table is sorted by key, non-decreasing in the byte-string order. -/
def SortedIdTable (ix : IdTable) : Prop :=
  List.Pairwise (fun e f => lexLt f.1 e.1 = false) ix

instance (ix : IdTable) : Decidable (SortedIdTable ix) := by
  unfold SortedIdTable
  infer_instance

/-- `PrefixResolution` from the index interface. -/
inductive PrefixResolution (V : Type) where
  | noMatch
  | singleMatch (values : List V)
  | ambiguousMatch
deriving DecidableEq, Repr

/-- `IdIndex::resolve_prefix_range`: binary-search to the partition point of
keys below the prefix (`partition_point`, embedded as the length of the
sorted prefix of entries with key `<` the hex prefix), then take entries
while the prefix matches.  `HexPrefix::matches` is modelled from the spec as
the hex-digit prefix test. -/
def resolvePrefixRange (ix : IdTable) (p : Key) : IdTable :=
  (ix.drop (ix.takeWhile (fun e => lexLt e.1 p)).length).takeWhile
    (fun e => p.isPrefixOf e.1)

/-- `IdIndex::resolve_prefix_with` (with the identity value mapper): peek the
first entry of the range; if every entry of the range has the same key the
values are collected, otherwise the prefix is ambiguous. -/
def resolvePrefixWith (ix : IdTable) (p : Key) : PrefixResolution Nat :=
  match resolvePrefixRange ix p with
  | [] => .noMatch
  | e :: rest =>
    if rest.all (fun f => f.1 == e.1) then .singleMatch (e.2 :: rest.map (·.2))
    else .ambiguousMatch

/-- `IdIndex::shortest_unique_prefix_len`: the partition point of keys below
`key`, the entry just before it, the first entry at or after it with a
different key, and the maximum common hex length against those neighbors,
plus one (`0` when there is no neighboring distinct key). -/
def shortestUniquePrefixLen (ix : IdTable) (key : Key) : Nat :=
  let pos := (ix.takeWhile (fun e => lexLt e.1 key)).length
  let left : Option IdEntry := if pos = 0 then none else ix[pos - 1]?
  let right : Option IdEntry := (ix.drop pos).find? (fun e => !(e.1 == key))
  ((left.toList ++ right.toList).map (fun e => commonLen key e.1 + 1)).foldr max 0

/-! ### Sorted-scan lemmas -/

theorem drop_length_takeWhile {α : Type} (q : α → Bool) :
    ∀ l : List α, l.drop (l.takeWhile q).length = l.dropWhile q := by
  intro l
  induction l with
  | nil => rfl
  | cons x xs ih =>
    cases hq : q x with
    | true => simp [List.takeWhile_cons, List.dropWhile_cons, hq, ih]
    | false => simp [List.takeWhile_cons, List.dropWhile_cons, hq]

theorem sortedTail {e : IdEntry} {l : IdTable} (h : SortedIdTable (e :: l)) :
    SortedIdTable l := (List.pairwise_cons.mp h).2

/-- Every entry surviving `dropWhile (key < _)` in a sorted table is `≥ key`. -/
theorem dropWhile_ge (key : Key) :
    ∀ l : IdTable, SortedIdTable l →
      ∀ e ∈ l.dropWhile (fun f => lexLt f.1 key), lexLt e.1 key = false := by
  intro l
  induction l with
  | nil => intro _ e he; simp at he
  | cons x xs ih =>
    intro hs e he
    cases hq : lexLt x.1 key with
    | true =>
      rw [List.dropWhile_cons] at he
      simp only [hq] at he
      exact ih (sortedTail hs) e he
    | false =>
      rw [List.dropWhile_cons] at he
      simp only [hq] at he
      rcases List.mem_cons.mp he with rfl | he2
      · exact hq
      · have hx : lexLt e.1 x.1 = false :=
          (List.pairwise_cons.mp hs).1 e he2
        exact lexLe_trans hq hx

/-- In a sorted run of entries all `≥` the prefix, the prefix-matching
entries form an initial segment: `takeWhile` equals `filter`. -/
theorem takeWhile_match_eq_filter (p : Key) :
    ∀ l : IdTable, SortedIdTable l → (∀ e ∈ l, lexLt e.1 p = false) →
      l.takeWhile (fun e => p.isPrefixOf e.1) =
        l.filter (fun e => p.isPrefixOf e.1) := by
  intro l
  induction l with
  | nil => intro _ _; rfl
  | cons x xs ih =>
    intro hs hge
    cases hm : p.isPrefixOf x.1 with
    | true =>
      rw [List.takeWhile_cons, List.filter_cons]
      simp only [hm, if_true]
      rw [ih (sortedTail hs) (fun e he => hge e (List.mem_cons_of_mem x he))]
    | false =>
      rw [List.takeWhile_cons, List.filter_cons]
      simp only [hm, if_false]
      have hnone : xs.filter (fun e => p.isPrefixOf e.1) = [] := by
        rw [List.filter_eq_nil_iff]
        intro e he hcon
        have hnm : ¬ p <+: x.1 := by
          intro hp
          rw [List.isPrefixOf_iff_prefix.mpr hp] at hm
          exact Bool.noConfusion hm
        have hgex : lexLt x.1 p = false := hge x (List.mem_cons_self x xs)
        have hex : lexLt e.1 x.1 = false := (List.pairwise_cons.mp hs).1 e he
        exact not_prefix_of_ge_nonmatch hgex hnm hex
          (List.isPrefixOf_iff_prefix.mp hcon)
      simp [hnone]

theorem mem_takeWhile_pred {α : Type} (q : α → Bool) :
    ∀ (l : List α) (a : α), a ∈ l.takeWhile q → q a = true := by
  intro l
  induction l with
  | nil => intro a ha; simp at ha
  | cons x xs ih =>
    intro a ha
    cases hq : q x with
    | true =>
      rw [List.takeWhile_cons, hq] at ha
      simp only [if_true] at ha
      rcases List.mem_cons.mp ha with rfl | ha2
      · exact hq
      · exact ih a ha2
    | false =>
      rw [List.takeWhile_cons, hq] at ha
      simp at ha

/-- Entries below the partition point never match the prefix. -/
theorem takeWhile_lt_no_match (p : Key) (l : IdTable) :
    ∀ e ∈ l.takeWhile (fun f => lexLt f.1 p), ¬ p <+: e.1 := by
  intro e he hp
  have h1 : lexLt e.1 p = true := mem_takeWhile_pred _ l e he
  have h2 : lexLt e.1 p = false := lexLt_eq_false_of_prefix hp
  rw [h1] at h2
  exact Bool.noConfusion h2

/-- The prefix range of a sorted table is exactly its prefix-matching
entries, in table order. -/
theorem resolvePrefixRange_eq_filter (ix : IdTable) (p : Key)
    (hs : SortedIdTable ix) :
    resolvePrefixRange ix p = ix.filter (fun e => p.isPrefixOf e.1) := by
  unfold resolvePrefixRange
  rw [drop_length_takeWhile]
  have hsplit := List.takeWhile_append_dropWhile
    (p := fun e : IdEntry => lexLt e.1 p) (l := ix)
  have hdw : SortedIdTable (ix.dropWhile (fun e => lexLt e.1 p)) :=
    List.Pairwise.sublist (List.dropWhile_sublist _) hs
  have hge := dropWhile_ge p ix hs
  rw [takeWhile_match_eq_filter p _ hdw hge]
  conv_rhs => rw [← hsplit]
  rw [List.filter_append]
  have htw : (ix.takeWhile (fun e => lexLt e.1 p)).filter
      (fun e => p.isPrefixOf e.1) = [] := by
    rw [List.filter_eq_nil_iff]
    intro e he hcon
    exact takeWhile_lt_no_match p ix e he (List.isPrefixOf_iff_prefix.mp hcon)
  rw [htw, List.nil_append]

theorem mem_of_getElemQ {α : Type} :
    ∀ (l : List α) (n : Nat) (a : α), l[n]? = some a → a ∈ l := by
  intro l
  induction l with
  | nil => intro n a h; simp at h
  | cons x xs ih =>
    intro n a h
    cases n with
    | zero =>
      rw [List.getElem?_cons_zero] at h
      exact (Option.some.injEq _ _ ▸ h : x = a) ▸ List.mem_cons_self x xs
    | succ m =>
      rw [List.getElem?_cons_succ] at h
      exact List.mem_cons_of_mem x (ih m a h)

/-- The entry at the last position of a sorted table is `≥` every entry. -/
theorem sorted_last_max :
    ∀ l : IdTable, SortedIdTable l → ∀ L : IdEntry,
      l[l.length - 1]? = some L → ∀ e ∈ l, lexLt L.1 e.1 = false := by
  intro l
  induction l with
  | nil => intro _ L hL; simp at hL
  | cons x xs ih =>
    intro hs L hL e he
    cases xs with
    | nil =>
      have hL0 : ([x] : IdTable)[0]? = some L := hL
      rw [List.getElem?_cons_zero] at hL0
      injection hL0 with hL0
      rcases List.mem_cons.mp he with rfl | he2
      · rw [← hL0]; exact lexLt_irrefl _
      · simp at he2
    | cons y ys =>
      have hlen : (x :: y :: ys).length - 1 = (y :: ys).length := by
        simp [List.length_cons]
      rw [hlen] at hL
      have hL2 : (y :: ys)[(y :: ys).length - 1]? = some L := by
        have : (y :: ys).length = ((y :: ys).length - 1) + 1 := by
          simp [List.length_cons]
        rw [this] at hL
        rw [List.getElem?_cons_succ] at hL
        exact hL
      have hLmem : L ∈ y :: ys := mem_of_getElemQ _ _ _ hL2
      rcases List.mem_cons.mp he with rfl | he2
      · exact (List.pairwise_cons.mp hs).1 L hLmem
      · exact ih (sortedTail hs) L hL2 e he2

/-- The first entry with key different from `key`, scanning entries all
`≥ key` in sorted order, is `≤` every entry whose key differs from `key`. -/
theorem find?_ne_bound (key : Key) :
    ∀ l : IdTable, SortedIdTable l → (∀ e ∈ l, lexLt e.1 key = false) →
      ∀ R : IdEntry, l.find? (fun e => !(e.1 == key)) = some R →
        R ∈ l ∧ R.1 ≠ key ∧ ∀ e ∈ l, e.1 ≠ key → lexLt e.1 R.1 = false := by
  intro l
  induction l with
  | nil => intro _ _ R hR; simp at hR
  | cons x xs ih =>
    intro hs hge R hR
    cases hx : (!(x.1 == key)) with
    | true =>
      simp only [List.find?, hx] at hR
      have hRx : x = R := by
        injection hR with h
      subst hRx
      refine ⟨List.mem_cons_self x xs, ?_, ?_⟩
      · simp only [Bool.not_eq_true', beq_eq_false_iff_ne, ne_eq] at hx
        exact hx
      · intro e he hne
        rcases List.mem_cons.mp he with rfl | he2
        · exact lexLt_irrefl _
        · exact (List.pairwise_cons.mp hs).1 e he2
    | false =>
      simp only [List.find?, hx] at hR
      have hxs := ih (sortedTail hs)
        (fun e he => hge e (List.mem_cons_of_mem x he)) R hR
      refine ⟨List.mem_cons_of_mem x hxs.1, hxs.2.1, ?_⟩
      intro e he hne
      rcases List.mem_cons.mp he with rfl | he2
      · simp only [Bool.not_eq_false', beq_iff_eq] at hx
        exact absurd hx hne
      · exact hxs.2.2 e he2 hne

theorem le_foldr_max : ∀ (l : List Nat) (x : Nat), x ∈ l → x ≤ l.foldr max 0 := by
  intro l
  induction l with
  | nil => intro x hx; simp at hx
  | cons y ys ih =>
    intro x hx
    rcases List.mem_cons.mp hx with rfl | hx2
    · exact Nat.le_max_left _ _
    · exact Nat.le_trans (ih x hx2) (Nat.le_max_right _ _)

theorem foldr_max_mem : ∀ l : List Nat, l ≠ [] → l.foldr max 0 ∈ l := by
  intro l
  induction l with
  | nil => intro h; exact absurd rfl h
  | cons y ys ih =>
    intro _
    cases ys with
    | nil => simp
    | cons z zs =>
      rcases Nat.le_total (List.foldr max 0 (z :: zs)) y with h | h
      · have heq : List.foldr max 0 (y :: z :: zs) = y := by
          rw [List.foldr_cons]
          exact Nat.max_eq_left h
        rw [heq]; exact List.mem_cons_self _ _
      · have heq : List.foldr max 0 (y :: z :: zs) = List.foldr max 0 (z :: zs) := by
          rw [List.foldr_cons]
          exact Nat.max_eq_right h
        rw [heq]
        exact List.mem_cons_of_mem _ (ih (List.cons_ne_nil _ _))

theorem supl_eq (ix : IdTable) (key : Key) :
    shortestUniquePrefixLen ix key =
      (((if (ix.takeWhile (fun e => lexLt e.1 key)).length = 0 then none
          else ix[(ix.takeWhile (fun e => lexLt e.1 key)).length - 1]?).toList
        ++ ((ix.drop (ix.takeWhile (fun e => lexLt e.1 key)).length).find?
            (fun e => !(e.1 == key))).toList).map
        (fun e => commonLen key e.1 + 1)).foldr max 0 := rfl

/-- Every entry of the table with a different key has common length at most
that of the best neighbor found by `shortest_unique_prefix_len`. -/
theorem supl_upper (ix : IdTable) (key : Key) (hs : SortedIdTable ix) :
    ∀ e ∈ ix, e.1 ≠ key →
      commonLen key e.1 + 1 ≤ shortestUniquePrefixLen ix key := by
  intro e he hne
  rw [supl_eq, drop_length_takeWhile]
  have htws : SortedIdTable (ix.takeWhile (fun f => lexLt f.1 key)) :=
    List.Pairwise.sublist (List.takeWhile_sublist _) hs
  have hdws : SortedIdTable (ix.dropWhile (fun f => lexLt f.1 key)) :=
    List.Pairwise.sublist (List.dropWhile_sublist _) hs
  have hge := dropWhile_ge key ix hs
  have hmem2 : e ∈ ix.takeWhile (fun f => lexLt f.1 key) ∨
      e ∈ ix.dropWhile (fun f => lexLt f.1 key) := by
    rw [← List.mem_append, List.takeWhile_append_dropWhile]
    exact he
  rcases hmem2 with htw | hdw
  · have hpos : (ix.takeWhile (fun f => lexLt f.1 key)).length ≠ 0 := by
      intro h0
      rw [List.length_eq_zero] at h0
      rw [h0] at htw
      simp at htw
    have hidx : (ix.takeWhile (fun f => lexLt f.1 key)).length - 1 <
        (ix.takeWhile (fun f => lexLt f.1 key)).length := by omega
    obtain ⟨L, hL⟩ : ∃ L, (ix.takeWhile (fun f => lexLt f.1 key))[
        (ix.takeWhile (fun f => lexLt f.1 key)).length - 1]? = some L := by
      rw [List.getElem?_eq_getElem hidx]
      exact ⟨_, rfl⟩
    have happ : ((ix.takeWhile (fun f => lexLt f.1 key)) ++
        (ix.dropWhile (fun f => lexLt f.1 key)))[
        (ix.takeWhile (fun f => lexLt f.1 key)).length - 1]? =
        (ix.takeWhile (fun f => lexLt f.1 key))[
        (ix.takeWhile (fun f => lexLt f.1 key)).length - 1]? := by
      rw [List.getElem?_append, if_pos hidx]
    rw [List.takeWhile_append_dropWhile] at happ
    have hLix : ix[(ix.takeWhile (fun f => lexLt f.1 key)).length - 1]? = some L := by
      rw [happ]; exact hL
    have hmax := sorted_last_max _ htws L hL
    have hLmemtw : L ∈ ix.takeWhile (fun f => lexLt f.1 key) :=
      mem_of_getElemQ _ _ _ hL
    have hLlt : lexLt L.1 key = true :=
      mem_takeWhile_pred (fun f : IdEntry => lexLt f.1 key) _ _ hLmemtw
    have hmono := commonLen_mono (a := e.1) (b := L.1) (c := key)
      (hmax e htw) (lexLt_asymm hLlt)
    have h1 : commonLen key e.1 ≤ commonLen key L.1 := by
      rw [commonLen_comm key e.1, commonLen_comm key L.1]
      exact hmono.1
    rw [if_neg hpos, hLix]
    refine Nat.le_trans (Nat.succ_le_succ h1) (le_foldr_max _ _ ?_)
    exact List.mem_map_of_mem _ (List.mem_append_left _ (by simp))
  · have hgee : lexLt e.1 key = false := hge e hdw
    obtain ⟨R, hR⟩ : ∃ R, (ix.dropWhile (fun f => lexLt f.1 key)).find?
        (fun f => !(f.1 == key)) = some R := by
      cases hf : (ix.dropWhile (fun f => lexLt f.1 key)).find?
          (fun f => !(f.1 == key)) with
      | none =>
        rw [List.find?_eq_none] at hf
        have := hf e hdw
        simp [hne] at this
      | some R => exact ⟨R, rfl⟩
    have hRb := find?_ne_bound key _ hdws hge R hR
    have hmono := commonLen_mono (a := key) (b := R.1) (c := e.1)
      (hge R hRb.1) (hRb.2.2 e hdw hne)
    rw [hR]
    refine Nat.le_trans (Nat.succ_le_succ hmono.2) (le_foldr_max _ _ ?_)
    exact List.mem_map_of_mem _ (List.mem_append_right _ (by simp))

/-- The result of `shortest_unique_prefix_len` is `0` or is attained at a
table entry with a different key. -/
theorem supl_attained (ix : IdTable) (key : Key) (hs : SortedIdTable ix) :
    shortestUniquePrefixLen ix key = 0 ∨
      ∃ e ∈ ix, e.1 ≠ key ∧
        shortestUniquePrefixLen ix key = commonLen key e.1 + 1 := by
  rw [supl_eq, drop_length_takeWhile]
  have htws : SortedIdTable (ix.takeWhile (fun f => lexLt f.1 key)) :=
    List.Pairwise.sublist (List.takeWhile_sublist _) hs
  have hdws : SortedIdTable (ix.dropWhile (fun f => lexLt f.1 key)) :=
    List.Pairwise.sublist (List.dropWhile_sublist _) hs
  have hge := dropWhile_ge key ix hs
  cases hcands : (if (ix.takeWhile (fun e => lexLt e.1 key)).length = 0 then none
      else ix[(ix.takeWhile (fun e => lexLt e.1 key)).length - 1]?).toList
      ++ ((ix.dropWhile (fun e => lexLt e.1 key)).find?
          (fun e => !(e.1 == key))).toList with
  | nil => exact Or.inl rfl
  | cons c cs =>
    right
    have hmaxmem : (((c :: cs).map (fun e => commonLen key e.1 + 1)).foldr max 0) ∈
        ((c :: cs).map (fun e => commonLen key e.1 + 1)) :=
      foldr_max_mem _ (by simp)
    rw [List.mem_map] at hmaxmem
    obtain ⟨nb, hnbmem, hnbval⟩ := hmaxmem
    have hnbmem2 : nb ∈ (if (ix.takeWhile (fun e => lexLt e.1 key)).length = 0
        then none
        else ix[(ix.takeWhile (fun e => lexLt e.1 key)).length - 1]?).toList
        ++ ((ix.dropWhile (fun e => lexLt e.1 key)).find?
            (fun e => !(e.1 == key))).toList := by
      rw [hcands]; exact hnbmem
    rcases List.mem_append.mp hnbmem2 with hleft | hright
    · by_cases hpos : (ix.takeWhile (fun e => lexLt e.1 key)).length = 0
      · rw [if_pos hpos] at hleft
        simp at hleft
      · rw [if_neg hpos] at hleft
        have hLix : ix[(ix.takeWhile (fun e => lexLt e.1 key)).length - 1]? =
            some nb := by
          cases hx : ix[(ix.takeWhile (fun e => lexLt e.1 key)).length - 1]? with
          | none => rw [hx] at hleft; simp at hleft
          | some z =>
            rw [hx] at hleft
            simp only [Option.toList_some, List.mem_singleton] at hleft
            rw [hleft]
        have hidx : (ix.takeWhile (fun e => lexLt e.1 key)).length - 1 <
            (ix.takeWhile (fun e => lexLt e.1 key)).length := by omega
        have happ : ((ix.takeWhile (fun e => lexLt e.1 key)) ++
            (ix.dropWhile (fun e => lexLt e.1 key)))[
            (ix.takeWhile (fun e => lexLt e.1 key)).length - 1]? =
            (ix.takeWhile (fun e => lexLt e.1 key))[
            (ix.takeWhile (fun e => lexLt e.1 key)).length - 1]? := by
          rw [List.getElem?_append, if_pos hidx]
        rw [List.takeWhile_append_dropWhile] at happ
        have hLtw : (ix.takeWhile (fun e => lexLt e.1 key))[
            (ix.takeWhile (fun e => lexLt e.1 key)).length - 1]? = some nb := by
          rw [← happ]; exact hLix
        have hnbtw : nb ∈ ix.takeWhile (fun e => lexLt e.1 key) :=
          mem_of_getElemQ _ _ _ hLtw
        have hlt : lexLt nb.1 key = true :=
          mem_takeWhile_pred (fun f : IdEntry => lexLt f.1 key) _ _ hnbtw
        refine ⟨nb, mem_of_getElemQ _ _ _ hLix, ?_, hnbval.symm⟩
        intro hk
        rw [hk] at hlt
        rw [lexLt_irrefl] at hlt
        exact Bool.noConfusion hlt
    · have hR : (ix.dropWhile (fun e => lexLt e.1 key)).find?
          (fun e => !(e.1 == key)) = some nb := by
        cases hx : (ix.dropWhile (fun e => lexLt e.1 key)).find?
            (fun e => !(e.1 == key)) with
        | none => rw [hx] at hright; simp at hright
        | some z =>
          rw [hx] at hright
          simp only [Option.toList_some, List.mem_singleton] at hright
          rw [hright]
      have hRb := find?_ne_bound key _ hdws hge nb hR
      refine ⟨nb, ?_, hRb.2.1, hnbval.symm⟩
      exact (List.dropWhile_sublist _).subset hRb.1

theorem take_append_left_of_le {α : Type} :
    ∀ (l₁ l₂ : List α) (m : Nat), m ≤ l₁.length →
      (l₁ ++ l₂).take m = l₁.take m := by
  intro l₁
  induction l₁ with
  | nil =>
    intro l₂ m hm
    have : m = 0 := Nat.le_zero.mp hm
    simp [this]
  | cons x xs ih =>
    intro l₂ m hm
    cases m with
    | zero => simp
    | succ k =>
      simp only [List.cons_append, List.take_succ_cons]
      rw [ih l₂ k (Nat.le_of_succ_le_succ hm)]

/-- **C2**: for every sorted `IdIndex` and key `k` present in it,
`shortest_unique_prefix_len(k)` is the least `n` (in hex digits) such that
no other key of the index shares the first `n` hex digits of `k`; when `k`
is a proper prefix of another key the result is `len(k) + 1`; and the
result is `0` for an empty index. -/
theorem shortestUniquePrefixLen_spec (ix : IdTable) (key : Key)
    (hs : SortedIdTable ix) (_hmem : ∃ v : Nat, (key, v) ∈ ix) :
    IsLeast {n : Nat | ∀ e ∈ ix, e.1 ≠ key → e.1.take n ≠ key.take n}
      (shortestUniquePrefixLen ix key)
    ∧ ((∃ e ∈ ix, key <+: e.1 ∧ e.1 ≠ key) →
        shortestUniquePrefixLen ix key = key.length + 1)
    ∧ shortestUniquePrefixLen ([] : IdTable) key = 0 := by
  have hleast : IsLeast {n : Nat | ∀ e ∈ ix, e.1 ≠ key → e.1.take n ≠ key.take n}
      (shortestUniquePrefixLen ix key) := by
    constructor
    · intro e he hne heq
      have h1 : shortestUniquePrefixLen ix key ≤ commonLen e.1 key :=
        commonLen_ge_of_take_eq hne heq
      have h2 := supl_upper ix key hs e he hne
      rw [commonLen_comm] at h1
      omega
    · intro n hn
      by_contra hlt
      have hlt2 : n < shortestUniquePrefixLen ix key := by omega
      rcases supl_attained ix key hs with h0 | ⟨e, he, hne, hval⟩
      · omega
      · have hcl : n ≤ commonLen key e.1 := by omega
        have htake : key.take n = e.1.take n := take_eq_of_commonLen hcl
        exact hn e he hne htake.symm
  refine ⟨hleast, ?_, rfl⟩
  rintro ⟨e0, he0, ⟨t, ht⟩, hne0⟩
  have hmemS : ∀ e ∈ ix, e.1 ≠ key →
      e.1.take (key.length + 1) ≠ key.take (key.length + 1) := by
    intro e he hne heq
    have hkey : key.take (key.length + 1) = key :=
      List.take_of_length_le (by omega)
    rw [hkey] at heq
    have hlen := congrArg List.length heq
    rw [List.length_take] at hlen
    have he1len : e.1.length = key.length := by omega
    have hall : e.1.take (key.length + 1) = e.1 :=
      List.take_of_length_le (by omega)
    rw [hall] at heq
    exact hne heq
  have hnotS : ∀ m, m ≤ key.length →
      ¬ (∀ e ∈ ix, e.1 ≠ key → e.1.take m ≠ key.take m) := by
    intro m hm hmS
    apply hmS e0 he0 hne0
    rw [← ht, take_append_left_of_le key t m hm]
  have h1 : shortestUniquePrefixLen ix key ≤ key.length + 1 :=
    hleast.2 hmemS
  have h2 : ¬ shortestUniquePrefixLen ix key ≤ key.length := fun hle =>
    hnotS _ hle hleast.1
  omega

/-- **C6**: for every sorted `IdIndex` and hex prefix, `resolve_prefix`
returns `NoMatch` exactly when no key matches the prefix; when exactly one
distinct key matches, it returns `SingleMatch` with every value whose key
equals that key (duplicates not collapsed); and it returns `AmbiguousMatch`
exactly when at least two distinct keys share the prefix. -/
theorem resolvePrefixWith_spec (ix : IdTable) (p : Key) (hs : SortedIdTable ix) :
    (resolvePrefixWith ix p = .noMatch ↔ ∀ e ∈ ix, ¬ p <+: e.1)
    ∧ (∀ k₀ : Key, (∃ e ∈ ix, p <+: e.1 ∧ e.1 = k₀) →
        (∀ e ∈ ix, p <+: e.1 → e.1 = k₀) →
        resolvePrefixWith ix p =
          .singleMatch ((ix.filter (fun e => decide (e.1 = k₀))).map (·.2)))
    ∧ (resolvePrefixWith ix p = .ambiguousMatch ↔
        ∃ e ∈ ix, ∃ f ∈ ix, p <+: e.1 ∧ p <+: f.1 ∧ e.1 ≠ f.1) := by
  have hcase1 : ix.filter (fun e => p.isPrefixOf e.1) = [] →
      resolvePrefixWith ix p = PrefixResolution.noMatch := by
    intro h
    unfold resolvePrefixWith
    rw [resolvePrefixRange_eq_filter ix p hs, h]
  have hcase2 : ∀ (f : IdEntry) (rest : List IdEntry),
      ix.filter (fun e => p.isPrefixOf e.1) = f :: rest →
      resolvePrefixWith ix p =
        if rest.all (fun g => g.1 == f.1) then
          PrefixResolution.singleMatch (f.2 :: rest.map (·.2))
        else PrefixResolution.ambiguousMatch := by
    intro f rest h
    unfold resolvePrefixWith
    rw [resolvePrefixRange_eq_filter ix p hs, h]
  have hmemF : ∀ e : IdEntry, e ∈ ix.filter (fun f => p.isPrefixOf f.1) ↔
      e ∈ ix ∧ p <+: e.1 := by
    intro e
    rw [List.mem_filter]
    constructor
    · rintro ⟨h1, h2⟩
      exact ⟨h1, List.isPrefixOf_iff_prefix.mp h2⟩
    · rintro ⟨h1, h2⟩
      exact ⟨h1, List.isPrefixOf_iff_prefix.mpr h2⟩
  refine ⟨?_, ?_, ?_⟩
  · constructor
    · intro h e he hp
      have hmem : e ∈ ix.filter (fun f => p.isPrefixOf f.1) :=
        (hmemF e).mpr ⟨he, hp⟩
      rcases hF : ix.filter (fun f => p.isPrefixOf f.1) with _ | ⟨f, rest⟩
      · rw [hF] at hmem; simp at hmem
      · rw [hcase2 f rest hF] at h
        by_cases hall : rest.all (fun g => g.1 == f.1) = true
        · simp [hall] at h
        · simp only [Bool.not_eq_true] at hall
          simp [hall] at h
    · intro h
      apply hcase1
      rw [List.filter_eq_nil_iff]
      intro e he hcon
      exact h e he (List.isPrefixOf_iff_prefix.mp hcon)
  · rintro k₀ ⟨e0, he0, hpe0, hk0⟩ huniq
    have hFeq : ix.filter (fun f => p.isPrefixOf f.1) =
        ix.filter (fun f => decide (f.1 = k₀)) := by
      apply List.filter_congr
      intro f hf
      cases hcon : p.isPrefixOf f.1 with
      | true =>
        have := huniq f hf (List.isPrefixOf_iff_prefix.mp hcon)
        simp [this]
      | false =>
        by_cases hfk : f.1 = k₀
        · exfalso
          rw [← hk0] at hfk
          have hpf : p <+: f.1 := hfk ▸ hpe0
          rw [List.isPrefixOf_iff_prefix.mpr hpf] at hcon
          exact Bool.noConfusion hcon
        · simp [hfk]
    rcases hF : ix.filter (fun f => p.isPrefixOf f.1) with _ | ⟨f, rest⟩
    · exfalso
      have hmem : e0 ∈ ix.filter (fun f => p.isPrefixOf f.1) :=
        (hmemF e0).mpr ⟨he0, hpe0⟩
      rw [hF] at hmem
      simp at hmem
    · have hfk : f.1 = k₀ := by
        have hfmem : f ∈ ix.filter (fun g => p.isPrefixOf g.1) := by
          rw [hF]; exact List.mem_cons_self _ _
        have hmf := (hmemF f).mp hfmem
        exact huniq f hmf.1 hmf.2
      have hall : rest.all (fun g => g.1 == f.1) = true := by
        rw [List.all_eq_true]
        intro g hg
        have hgmem : g ∈ ix.filter (fun h => p.isPrefixOf h.1) := by
          rw [hF]; exact List.mem_cons_of_mem _ hg
        have hgix := (hmemF g).mp hgmem
        have hgk : g.1 = k₀ := huniq g hgix.1 hgix.2
        simp [hgk, hfk]
      rw [hcase2 f rest hF, if_pos hall, ← hFeq, hF]
      simp
  · constructor
    · intro h
      rcases hF : ix.filter (fun f => p.isPrefixOf f.1) with _ | ⟨f, rest⟩
      · rw [hcase1 hF] at h
        exact absurd h (by simp)
      · rw [hcase2 f rest hF] at h
        by_cases hall : rest.all (fun g => g.1 == f.1) = true
        · simp [hall] at h
        · rw [List.all_eq_true] at hall
          push_neg at hall
          obtain ⟨g, hg, hgne⟩ := hall
          have hfmem := (hmemF f).mp (by rw [hF]; exact List.mem_cons_self _ _)
          have hgmem := (hmemF g).mp (by rw [hF]; exact List.mem_cons_of_mem _ hg)
          refine ⟨f, hfmem.1, g, hgmem.1, hfmem.2, hgmem.2, ?_⟩
          intro hfg
          apply hgne
          simp [hfg]
    · rintro ⟨e1, he1, e2, he2, hp1, hp2, hne⟩
      rcases hF : ix.filter (fun f => p.isPrefixOf f.1) with _ | ⟨f, rest⟩
      · exfalso
        have hmem : e1 ∈ ix.filter (fun f => p.isPrefixOf f.1) :=
          (hmemF e1).mpr ⟨he1, hp1⟩
        rw [hF] at hmem
        simp at hmem
      · rw [hcase2 f rest hF]
        have hall : rest.all (fun g => g.1 == f.1) = false := by
          by_contra hc
          have hallT : rest.all (fun g => g.1 == f.1) = true := by
            cases hx : rest.all (fun g => g.1 == f.1) with
            | true => rfl
            | false => exact absurd hx hc
          have hkeys : ∀ x ∈ ix.filter (fun g => p.isPrefixOf g.1), x.1 = f.1 := by
            intro x hx
            rw [hF] at hx
            rcases List.mem_cons.mp hx with rfl | hx2
            · rfl
            · have := List.all_eq_true.mp hallT x hx2
              simpa using this
          have h1 : e1.1 = f.1 := hkeys e1 ((hmemF e1).mpr ⟨he1, hp1⟩)
          have h2 : e2.1 = f.1 := hkeys e2 ((hmemF e2).mpr ⟨he2, hp2⟩)
          exact hne (h1.trans h2.symm)
        rw [hall]
        simp

/-! ### Revset expressions and the optimizer (`src/lib/src/revset.rs`) -/

/-- `u32::MAX` (generation ranges are `Range<u32>`). -/
def U32MAX : Nat := 4294967295

/-- A `Range<u32>` of generation numbers: `(start, end)`, half-open. -/
abbrev GenRange := Nat × Nat

def GENERATION_RANGE_FULL : GenRange := (0, U32MAX)

def GENERATION_RANGE_EMPTY : GenRange := (0, 0)

/-- `Range::is_empty`. -/
def genIsEmpty (g : GenRange) : Bool := decide (g.2 ≤ g.1)

/-- `u32::saturating_add`, embedded for operands `≤ u32::MAX`. -/
def satAdd (a b : Nat) : Nat := min (a + b) U32MAX

/-- `RevsetFilterPredicate`. -/
inductive FilterPredicate where
  | parentCount (range : GenRange)
  | description (needle : String)
  | author (needle : String)
  | committer (needle : String)
  | file (paths : Option (List String))
deriving DecidableEq

/-- `RevsetExpression`. -/
inductive Expr where
  | none
  | all
  | commits (ids : List Nat)
  | symbol (name : String)
  | children (roots : Expr)
  | ancestors (heads : Expr) (generation : GenRange)
  | range (roots : Expr) (heads : Expr) (generation : GenRange)
  | dagRange (roots : Expr) (heads : Expr)
  | heads (candidates : Expr)
  | roots (candidates : Expr)
  | visibleHeads
  | publicHeads
  | branches (needle : String)
  | remoteBranches (branchNeedle : String) (remoteNeedle : String)
  | tags
  | gitRefs
  | gitHead
  | filter (predicate : FilterPredicate)
  | asFilter (candidates : Expr)
  | present (candidates : Expr)
  | notIn (complement : Expr)
  | union (a b : Expr)
  | intersection (a b : Expr)
  | difference (a b : Expr)
deriving DecidableEq

/-- The post-step of `transform_rec`: if a child was rewritten, apply `f`
once to the rebuilt node; otherwise apply `f` to the original node. -/
def transformPost (f : Expr → Option Expr) (e : Expr) :
    Option Expr → Option Expr
  | Option.some n => Option.some ((f n).getD n)
  | Option.none => f e

/-- `transform_rec_pair` applied to the two rewriting results. -/
def transformCombine (a b : Expr) (mk : Expr → Expr → Expr) :
    Option Expr → Option Expr → Option Expr
  | Option.some x, Option.some y => Option.some (mk x y)
  | Option.some x, Option.none => Option.some (mk x b)
  | Option.none, Option.some y => Option.some (mk a y)
  | Option.none, Option.none => Option.none

/-- `transform_expression_bottom_up` / `transform_rec`: rewrite children
first (`transform_child_rec`, inlined per constructor), then apply `f` once
to the possibly-rebuilt node; `Option.none` means the node is unchanged. -/
def transformRec (f : Expr → Option Expr) : Expr → Option Expr
  | .none => transformPost f .none Option.none
  | .all => transformPost f .all Option.none
  | .commits ids => transformPost f (.commits ids) Option.none
  | .symbol s => transformPost f (.symbol s) Option.none
  | .children r => transformPost f (.children r) ((transformRec f r).map .children)
  | .ancestors h g =>
    transformPost f (.ancestors h g) ((transformRec f h).map (.ancestors · g))
  | .range r h g =>
    transformPost f (.range r h g)
      (transformCombine r h (.range · · g) (transformRec f r) (transformRec f h))
  | .dagRange r h =>
    transformPost f (.dagRange r h)
      (transformCombine r h .dagRange (transformRec f r) (transformRec f h))
  | .heads c => transformPost f (.heads c) ((transformRec f c).map .heads)
  | .roots c => transformPost f (.roots c) ((transformRec f c).map .roots)
  | .visibleHeads => transformPost f .visibleHeads Option.none
  | .publicHeads => transformPost f .publicHeads Option.none
  | .branches n => transformPost f (.branches n) Option.none
  | .remoteBranches b r => transformPost f (.remoteBranches b r) Option.none
  | .tags => transformPost f .tags Option.none
  | .gitRefs => transformPost f .gitRefs Option.none
  | .gitHead => transformPost f .gitHead Option.none
  | .filter p => transformPost f (.filter p) Option.none
  | .asFilter c => transformPost f (.asFilter c) ((transformRec f c).map .asFilter)
  | .present c => transformPost f (.present c) ((transformRec f c).map .present)
  | .notIn c => transformPost f (.notIn c) ((transformRec f c).map .notIn)
  | .union a b =>
    transformPost f (.union a b)
      (transformCombine a b .union (transformRec f a) (transformRec f b))
  | .intersection a b =>
    transformPost f (.intersection a b)
      (transformCombine a b .intersection (transformRec f a) (transformRec f b))
  | .difference a b =>
    transformPost f (.difference a b)
      (transformCombine a b .difference (transformRec f a) (transformRec f b))

/-- `unfold_difference`: `Range` and `Difference` become negative
intersections of `Ancestors`. -/
def unfoldDifferenceRule : Expr → Option Expr
  | .range roots hds g =>
    Option.some (.intersection (.ancestors hds g)
      (.notIn (.ancestors roots GENERATION_RANGE_FULL)))
  | .difference e1 e2 => Option.some (.intersection e1 (.notIn e2))
  | _ => Option.none

def unfoldDifference (e : Expr) : Option Expr := transformRec unfoldDifferenceRule e

/-- `fold_redundant_expression`: `~~x → x`, `x & all() → x`, `all() & x → x`. -/
def foldRedundantRule : Expr → Option Expr
  | .notIn outer =>
    match outer with
    | .notIn inner => Option.some inner
    | _ => Option.none
  | .intersection e1 e2 =>
    match e1, e2 with
    | _, .all => Option.some e1
    | .all, _ => Option.some e2
    | _, _ => Option.none
  | _ => Option.none

def foldRedundantExpression (e : Expr) : Option Expr := transformRec foldRedundantRule e

/-- The generation sum of `fold_ancestors`: empty ranges propagate, else
`[g1.start + g2.start, g1.end + (g2.end - 1))` with saturating `u32` sums. -/
def addGenerations (g1 g2 : GenRange) : GenRange :=
  if genIsEmpty g1 || genIsEmpty g2 then GENERATION_RANGE_EMPTY
  else (satAdd g1.1 g2.1, satAdd g1.2 (g2.2 - 1))

/-- `fold_ancestors`: fold nested `Ancestors{Ancestors{h, g2}, g1}`. -/
def foldAncestorsRule : Expr → Option Expr
  | .ancestors hds g1 =>
    match hds with
    | .ancestors hds2 g2 => Option.some (.ancestors hds2 (addGenerations g1 g2))
    | _ => Option.none
  | _ => Option.none

def foldAncestors (e : Expr) : Option Expr := transformRec foldAncestorsRule e

/-- `is_filter`. -/
def isFilter : Expr → Bool
  | .filter _ => true
  | .asFilter _ => true
  | _ => false

/-- `as_filter_intersection`. -/
def asFilterIntersection : Expr → Option (Expr × Expr)
  | .intersection e1 e2 => if isFilter e2 then Option.some (e1, e2) else Option.none
  | _ => Option.none

/-- `is_filter_tree`. -/
def isFilterTree (e : Expr) : Bool := isFilter e || (asFilterIntersection e).isSome

/-- Structural size used as the termination measure of `intersectDown`. -/
def exprSize : Expr → Nat
  | .children r => exprSize r + 1
  | .ancestors h _ => exprSize h + 1
  | .range r h _ => exprSize r + exprSize h + 1
  | .dagRange r h => exprSize r + exprSize h + 1
  | .heads c => exprSize c + 1
  | .roots c => exprSize c + 1
  | .asFilter c => exprSize c + 1
  | .present c => exprSize c + 1
  | .notIn c => exprSize c + 1
  | .union a b => exprSize a + exprSize b + 1
  | .intersection a b => exprSize a + exprSize b + 1
  | .difference a b => exprSize a + exprSize b + 1
  | _ => 1

/-- `intersect_down`: push filter intersections down-left.  The source
matches on `(as_filter_intersection e1, as_filter_intersection e2)`; the
arms are expanded into direct patterns here, preserving arm order. -/
def intersectDown (e1 e2 : Expr) : Option Expr :=
  if isFilter e2 then Option.none
  else if isFilter e1 then Option.some (Expr.intersection e2 e1)
  else
    match e1, e2 with
    | .intersection c1 f1, .intersection c2 f2 =>
      if isFilter f2 then
        Option.some (Expr.intersection
          ((intersectDown (.intersection c1 f1) c2).getD
            (Expr.intersection (.intersection c1 f1) c2)) f2)
      else if isFilter f1 then
        Option.some (Expr.intersection
          ((intersectDown c1 (.intersection c2 f2)).getD
            (Expr.intersection c1 (.intersection c2 f2))) f1)
      else Option.none
    | e1, .intersection c2 f2 =>
      if isFilter f2 then
        Option.some (Expr.intersection
          ((intersectDown e1 c2).getD (Expr.intersection e1 c2)) f2)
      else Option.none
    | .intersection c1 f1, e2 =>
      if isFilter f1 then
        Option.some (Expr.intersection
          ((intersectDown c1 e2).getD (Expr.intersection c1 e2)) f1)
      else Option.none
    | _, _ => Option.none
termination_by exprSize e1 + exprSize e2
decreasing_by all_goals (simp [exprSize]; omega)

/-- `internalize_filter`: wrap filter-bearing `Present`/`NotIn`/`Union` in
`AsFilter`, and reorder intersections through `intersect_down`. -/
def internalizeFilterRule : Expr → Option Expr
  | .present e =>
    if isFilterTree e then Option.some (.asFilter (.present e)) else Option.none
  | .notIn e =>
    if isFilterTree e then Option.some (.asFilter (.notIn e)) else Option.none
  | .union e1 e2 =>
    if isFilterTree e1 || isFilterTree e2 then
      Option.some (.asFilter (.union e1 e2))
    else Option.none
  | .intersection e1 e2 => intersectDown e1 e2
  | _ => Option.none

def internalizeFilter (e : Expr) : Option Expr := transformRec internalizeFilterRule e

/-- `to_difference` inside `fold_difference`. -/
def toDifference (e c : Expr) : Expr :=
  match e, c with
  | .ancestors hds g, .ancestors roots g2 =>
    if g2 = GENERATION_RANGE_FULL then .range roots hds g
    else .difference (.ancestors hds g) (.ancestors roots g2)
  | _, _ => .difference e c

/-- `fold_difference`: turn negative intersections back into differences,
reconstructing `Range` from full-generation ancestor sets. -/
def foldDifferenceRule : Expr → Option Expr
  | .intersection e1 e2 =>
    match e1, e2 with
    | _, .notIn complement => Option.some (toDifference e1 complement)
    | .notIn complement, _ => Option.some (toDifference e2 complement)
    | _, _ => Option.none
  | _ => Option.none

def foldDifference (e : Expr) : Option Expr := transformRec foldDifferenceRule e

/-- `optimize`: the five passes in source order. -/
def optimize (e : Expr) : Expr :=
  let e1 := (unfoldDifference e).getD e
  let e2 := (foldRedundantExpression e1).getD e1
  let e3 := (foldAncestors e2).getD e2
  let e4 := (internalizeFilter e3).getD e3
  (foldDifference e4).getD e4

/-- Does the node have the `Ancestors` shape? -/
def isAncestorsNode : Expr → Bool
  | .ancestors _ _ => true
  | _ => false

theorem foldAncestorsRule_not_nested (h : Expr) (hna : isAncestorsNode h = false)
    (g : GenRange) : foldAncestorsRule (.ancestors h g) = Option.none := by
  cases h <;> first
    | rfl
    | simp [isAncestorsNode] at hna

/-- **C9**: `fold_ancestors` rewrites nested `Ancestors{Ancestors{h, g2}, g1}`
into `Ancestors{h, g}` where `g = [g1.start + g2.start, g1.end + g2.end − 1)`
with both bounds clamped (saturating) in `u32`, and `g` is the empty range
`0..0` whenever `g1` or `g2` is empty. -/
theorem foldAncestors_nested (h : Expr) (g1 g2 : GenRange)
    (hna : isAncestorsNode h = false) (hfix : foldAncestors h = Option.none) :
    foldAncestors (.ancestors (.ancestors h g2) g1) =
      Option.some (.ancestors h
        (if genIsEmpty g1 || genIsEmpty g2 then (0, 0)
         else (min (g1.1 + g2.1) U32MAX, min (g1.2 + g2.2 - 1) U32MAX))) := by
  have hrule := foldAncestorsRule_not_nested h hna g2
  unfold foldAncestors at hfix ⊢
  simp only [transformRec, hfix, Option.map_none', transformPost, hrule]
  simp only [foldAncestorsRule, Option.some.injEq, Expr.ancestors.injEq]
  refine ⟨trivial, ?_⟩
  unfold addGenerations
  by_cases hg : (genIsEmpty g1 || genIsEmpty g2) = true
  · rw [if_pos hg, if_pos hg]; rfl
  · rw [if_neg hg, if_neg hg]
    have hg2 : g2.1 < g2.2 := by
      simp only [Bool.or_eq_true, genIsEmpty, decide_eq_true_eq] at hg
      omega
    have harith : g1.2 + (g2.2 - 1) = g1.2 + g2.2 - 1 := by omega
    unfold satAdd
    rw [harith]

/-- Modelled from the spec: the parser output for `":foo & ~:bar"` under the
grammar (the `revset.pest` grammar file is not under `src/`): prefix `:`
parses to `ancestors()`, prefix `~` to `negated()`, `&` to `intersection()`. -/
def parsedRangeExample : Expr :=
  .intersection (.ancestors (.symbol "foo") GENERATION_RANGE_FULL)
    (.notIn (.ancestors (.symbol "bar") GENERATION_RANGE_FULL))

/-- **C5**: `optimize` folds an intersection of a full-generation ancestor
set of `b` with the negation of a full-generation ancestor set of `a` into
`Range{roots = a, heads = b, generation = 0..u32::MAX}`; in particular on
the parse of `":foo & ~:bar"` it yields exactly
`Range{roots = Symbol "bar", heads = Symbol "foo"}`. -/
theorem optimize_range_fold (s t : String) :
    optimize (.intersection (.ancestors (.symbol t) GENERATION_RANGE_FULL)
        (.notIn (.ancestors (.symbol s) GENERATION_RANGE_FULL))) =
      .range (.symbol s) (.symbol t) GENERATION_RANGE_FULL
    ∧ optimize parsedRangeExample =
      .range (.symbol "bar") (.symbol "foo") GENERATION_RANGE_FULL := by
  refine ⟨?_, ?_⟩ <;>
    simp [optimize, unfoldDifference, foldRedundantExpression, foldAncestors,
      internalizeFilter, foldDifference, transformRec, transformPost,
      transformCombine, unfoldDifferenceRule, foldRedundantRule,
      foldAncestorsRule, internalizeFilterRule, foldDifferenceRule,
      intersectDown, isFilter, toDifference, parsedRangeExample,
      GENERATION_RANGE_FULL]

/-- Witness for the `fold_ancestors` theorem at `h = Symbol "x"`,
`g1 = g2 = 1..2` (parents of parents fold to generation `2..3`). -/
theorem foldAncestors_nested_witness :
    foldAncestors (.ancestors (.ancestors (.symbol "x") (1, 2)) (1, 2)) =
      Option.some (.ancestors (.symbol "x") (2, 3)) := by
  have h := foldAncestors_nested (.symbol "x") (1, 2) (1, 2) rfl rfl
  simpa [genIsEmpty, U32MAX] using h

/-- Concrete sorted id table for the prefix-length witness
(hex keys `a0, ab, acd0, acf0, ba`). -/
def cTable : IdTable :=
  [([10, 0], 0), ([10, 11], 1), ([10, 12, 13, 0], 2),
    ([10, 12, 15, 0], 3), ([11, 10], 4)]

/-- The key `acd0` of the witness table. -/
def cKey : Key := [10, 12, 13, 0]

/-- Witness for the shortest-unique-prefix theorem on a concrete table. -/
theorem shortestUniquePrefixLen_spec_witness :
    SortedIdTable cTable ∧ (∃ v : Nat, (cKey, v) ∈ cTable) ∧
      (IsLeast {n : Nat | ∀ e ∈ cTable, e.1 ≠ cKey → e.1.take n ≠ cKey.take n}
        (shortestUniquePrefixLen cTable cKey)
      ∧ ((∃ e ∈ cTable, cKey <+: e.1 ∧ e.1 ≠ cKey) →
          shortestUniquePrefixLen cTable cKey = cKey.length + 1)
      ∧ shortestUniquePrefixLen ([] : IdTable) cKey = 0) :=
  ⟨by decide, ⟨2, by decide⟩,
    shortestUniquePrefixLen_spec cTable cKey (by decide) ⟨2, by decide⟩⟩

/-- Concrete sorted id table for the prefix-resolution witness
(hex keys `0000, 0099, 0099, 0aaa, 0aab` with values `0..4`). -/
def dTable : IdTable :=
  [([0, 0, 0, 0], 0), ([0, 0, 9, 9], 1), ([0, 0, 9, 9], 2),
    ([0, 10, 10, 10], 3), ([0, 10, 10, 11], 4)]

/-- Witness for the prefix-resolution theorem at the prefix `009`. -/
theorem resolvePrefixWith_spec_witness :
    SortedIdTable dTable ∧
      ((resolvePrefixWith dTable [0, 0, 9] = .noMatch ↔
          ∀ e ∈ dTable, ¬ [0, 0, 9] <+: e.1)
      ∧ (∀ k₀ : Key, (∃ e ∈ dTable, [0, 0, 9] <+: e.1 ∧ e.1 = k₀) →
          (∀ e ∈ dTable, [0, 0, 9] <+: e.1 → e.1 = k₀) →
          resolvePrefixWith dTable [0, 0, 9] =
            .singleMatch ((dTable.filter (fun e => decide (e.1 = k₀))).map (·.2)))
      ∧ (resolvePrefixWith dTable [0, 0, 9] = .ambiguousMatch ↔
          ∃ e ∈ dTable, ∃ f ∈ dTable,
            [0, 0, 9] <+: e.1 ∧ [0, 0, 9] <+: f.1 ∧ e.1 ≠ f.1)) :=
  ⟨by decide, resolvePrefixWith_spec dTable [0, 0, 9] (by decide)⟩

/-! ### MutableRepo (`src/lib/src/repo.rs`)

State of `MutableRepo`: the view (in a dirty cell), the rewritten/abandoned
records, and the store root commit id.  The commit index is consumed as a
capability; we model the ancestor test and the entry list it exposes.
Commit and change ids are embedded as `Nat`. -/

/-- One entry of the commit index: commit id and change id. -/
structure IndexEntry where
  commitId : Nat
  changeId : Nat
deriving DecidableEq

/-- Modelled from the spec: the `Index` capability — an ancestor test
(`is_ancestor`) and the entries reachable by `walk_revs`. -/
structure Index where
  entries : List IndexEntry
  anc : Nat → Nat → Bool

/-- The commit fields `add_head` consumes. -/
structure CommitData where
  id : Nat
  parents : List Nat
deriving DecidableEq

/-- The view fields touched by the verified operations (`op_store::View`
also holds branch/tag/git-ref maps, which none of the claims need). -/
structure StoreView where
  wcCommits : List (Nat × Nat)
  headIds : Finset Nat
  publicHeadIds : Finset Nat
deriving DecidableEq

/-- `MutableRepo`: dirty-cell view, rewrite records, root id. -/
structure MutableRepo where
  view : StoreView
  dirty : Bool
  rewritten : Finset (Nat × Nat)
  abandoned : Finset Nat
  rootId : Nat
deriving DecidableEq

/-- Lookup in the workspace map (`View::get_wc_commit_id`). -/
def wcGet (m : List (Nat × Nat)) (k : Nat) : Option Nat :=
  (m.find? (fun e => e.1 == k)).map (·.2)

/-- Remove a workspace entry (`View::remove_wc_commit`). -/
def wcRemove (m : List (Nat × Nat)) (k : Nat) : List (Nat × Nat) :=
  m.filter (fun e => !(e.1 == k))

/-- Insert-or-replace a workspace entry (`View::set_wc_commit`). -/
def wcSet (m : List (Nat × Nat)) (k v : Nat) : List (Nat × Nat) :=
  (k, v) :: wcRemove m k

/-- Modelled from the spec: the `Index::heads` capability returns the
minimal head set — the members that are not ancestors of another member. -/
def headsOf (anc : Nat → Nat → Bool) (s : Finset Nat) : Finset Nat :=
  s.filter (fun x => ∀ y ∈ s, y ≠ x → anc x y = false)

/-- `MutableRepo::enforce_view_invariants`: normalize public heads first,
then extend the head set with them and normalize it. -/
def enforceViewInvariants (ix : Index) (v : StoreView) : StoreView :=
  let pub := headsOf ix.anc v.publicHeadIds
  { v with publicHeadIds := pub, headIds := headsOf ix.anc (v.headIds ∪ pub) }

/-- `<MutableRepo as Repo>::view`: `get_or_ensure_clean` re-normalizes the
cached view exactly when the cell is dirty. -/
def observeView (ix : Index) (st : MutableRepo) : StoreView :=
  if st.dirty then enforceViewInvariants ix st.view else st.view

/-- `MutableRepo::record_rewritten_commit`; the `assert_ne!(old_id, root)`
failure is modelled as `Option.none`. -/
def recordRewrittenCommit (st : MutableRepo) (oldId newId : Nat) :
    Option MutableRepo :=
  if oldId = st.rootId then Option.none
  else Option.some { st with rewritten := insert (oldId, newId) st.rewritten }

/-- `MutableRepo::record_abandoned_commit`; the assert is `Option.none`. -/
def recordAbandonedCommit (st : MutableRepo) (oldId : Nat) : Option MutableRepo :=
  if oldId = st.rootId then Option.none
  else Option.some { st with abandoned := insert oldId st.abandoned }

/-- Inclusive reachability: a commit is reachable from a head if it is the
head itself or an ancestor of it. -/
def reach (ix : Index) (a b : Nat) : Bool := a == b || ix.anc a b

/-- Modelled from the spec: `Index::walk_revs(heads, roots)` yields the
index entries reachable from `heads` but not reachable from `roots`. -/
def walkRevs (ix : Index) (hds roots : List Nat) : List IndexEntry :=
  ix.entries.filter (fun e =>
    hds.any (fun h => reach ix e.commitId h) &&
      !(roots.any (fun r => reach ix e.commitId r)))

/-- `MutableRepo::record_rewrites`: group the commits removed between the
head lists by change id; commits added on the other side sharing a change
id are recorded as rewrites of every removed commit of that change; removed
changes with no added commit are recorded abandoned. -/
def recordRewrites (ix : Index) (st : MutableRepo) (oldHeads newHeads : List Nat) :
    Option MutableRepo :=
  let removed := walkRevs ix oldHeads newHeads
  if removed.isEmpty then Option.some st
  else
    let added := walkRevs ix newHeads oldHeads
    let pairs := added.flatMap (fun a =>
      (removed.filter (fun r => r.changeId == a.changeId)).map
        (fun r => (r.commitId, a.commitId)))
    match pairs.foldlM (fun s (p : Nat × Nat) => recordRewrittenCommit s p.1 p.2) st with
    | Option.none => Option.none
    | Option.some st1 =>
      (removed.filter (fun r =>
        !(added.any (fun a => a.changeId == r.changeId)))).foldlM
        (fun s r => recordAbandonedCommit s r.commitId) st1

/-- One iteration of the first working-copy loop of `merge_view`: for a
workspace/pointer entry of `base`, three-way merge reading the current self
map (`acc`) and the `other` map. -/
def mergeWcStep (otherM : List (Nat × Nat)) (acc : List (Nat × Nat))
    (e : Nat × Nat) : List (Nat × Nat) :=
  let s := wcGet acc e.1
  let o := wcGet otherM e.1
  if o = Option.some e.2 ∨ o = s then acc
  else
    match o with
    | Option.some oc => if s = Option.some e.2 then wcSet acc e.1 oc else acc
    | Option.none => wcRemove acc e.1

/-- One iteration of the second working-copy loop of `merge_view`: a
workspace of `other` absent from both the current self map and `base` is
added. -/
def addWcStep (baseM : List (Nat × Nat)) (acc : List (Nat × Nat))
    (e : Nat × Nat) : List (Nat × Nat) :=
  if wcGet acc e.1 = Option.none ∧ wcGet baseM e.1 = Option.none then
    wcSet acc e.1 e.2
  else acc

/-- `MutableRepo::merge_view`, first and second working-copy loops:
workspaces of `base` are three-way merged reading the current self map, and
workspaces only in `other` are added. -/
def mergeWcCommits (selfM baseM otherM : List (Nat × Nat)) : List (Nat × Nat) :=
  otherM.foldl (addWcStep baseM) (baseM.foldl (mergeWcStep otherM) selfM)

/-- `MutableRepo::merge_view` on the modelled fields: merge working copies,
apply public-head differences, record rewrites against own and other heads,
then add the heads added by `other` (removed heads are handled through the
rewrite records).  Branch/tag/git-ref merging is outside the model. -/
def mergeView (ix : Index) (st : MutableRepo) (base other : StoreView) :
    Option MutableRepo :=
  let wc := mergeWcCommits st.view.wcCommits base.wcCommits other.wcCommits
  let pub := (st.view.publicHeadIds \ (base.publicHeadIds \ other.publicHeadIds))
      ∪ (other.publicHeadIds \ base.publicHeadIds)
  let st1 : MutableRepo :=
    { st with view := { st.view with wcCommits := wc, publicHeadIds := pub } }
  match recordRewrites ix st1 (base.headIds.sort (· ≤ ·))
      (st1.view.headIds.sort (· ≤ ·)) with
  | Option.none => Option.none
  | Option.some st2 =>
    match recordRewrites ix st2 (base.headIds.sort (· ≤ ·))
        (other.headIds.sort (· ≤ ·)) with
    | Option.none => Option.none
    | Option.some st3 =>
      Option.some { st3 with view := { st3.view with
        headIds := st3.view.headIds ∪ (other.headIds \ base.headIds) } }

/-- `MutableRepo::add_head`: the fast path (all parents are current heads)
adds the head and removes its parents without marking the cell dirty; the
slow path adds the head and marks dirty for the invariant enforcer. -/
def addHead (st : MutableRepo) (c : CommitData) : MutableRepo :=
  if c.parents.all (fun p => decide (p ∈ st.view.headIds)) then
    { st with view := { st.view with
        headIds := (insert c.id st.view.headIds) \ c.parents.toFinset } }
  else
    let v2 := { st.view with headIds := insert c.id st.view.headIds }
    { st with view := v2, dirty := true }

/-- The `MutableRepo` mutations considered by the head-invariant claim. -/
inductive RepoOp where
  | addHead (c : CommitData)
  | removeHead (h : Nat)
  | addPublicHead (h : Nat)
  | removePublicHead (h : Nat)
  | setView (v : StoreView)
  | merge (base other : StoreView)

/-- One mutation applied to the repo state, as the source methods do:
`remove_head`, `add_public_head`, `remove_public_head` and `set_view` mark
the view dirty; `merge` first ensures the view clean, merges, then marks
dirty. -/
def applyOp (ix : Index) (st : MutableRepo) : RepoOp → Option MutableRepo
  | .addHead c => Option.some (addHead st c)
  | .removeHead h => Option.some { st with
      view := { st.view with headIds := st.view.headIds.erase h }, dirty := true }
  | .addPublicHead h => Option.some { st with
      view := { st.view with publicHeadIds := insert h st.view.publicHeadIds },
      dirty := true }
  | .removePublicHead h => Option.some { st with
      view := { st.view with publicHeadIds := st.view.publicHeadIds.erase h },
      dirty := true }
  | .setView v => Option.some { st with view := v, dirty := true }
  | .merge base other =>
    let st1 : MutableRepo :=
      { st with view := enforceViewInvariants ix st.view, dirty := false }
    (mergeView ix st1 base other).map (fun st2 => { st2 with dirty := true })

/-- A sequence of mutations. -/
def runOps (ix : Index) (ops : List RepoOp) (st : MutableRepo) :
    Option MutableRepo :=
  ops.foldlM (fun s op => applyOp ix s op) st

/-- No member of `s` is an ancestor of another member, per the index. -/
def PairwiseNonAncestor (anc : Nat → Nat → Bool) (s : Finset Nat) : Prop :=
  ∀ x ∈ s, ∀ y ∈ s, x ≠ y → anc x y = false

instance (anc : Nat → Nat → Bool) (s : Finset Nat) :
    Decidable (PairwiseNonAncestor anc s) := by
  unfold PairwiseNonAncestor
  infer_instance

/-- The head invariant: heads and public heads are pairwise non-ancestors. -/
def ViewInv (ix : Index) (v : StoreView) : Prop :=
  PairwiseNonAncestor ix.anc v.headIds ∧ PairwiseNonAncestor ix.anc v.publicHeadIds

instance (ix : Index) (v : StoreView) : Decidable (ViewInv ix v) := by
  unfold ViewInv
  infer_instance

/-- Transitivity of the index ancestor relation. -/
def AncTrans (anc : Nat → Nat → Bool) : Prop :=
  ∀ a b c, anc a b = true → anc b c = true → anc a c = true

/-- The index facts about a commit passed to `add_head`: at least one
parent, each parent an ancestor of it, and any ancestor of it is itself or
passes through a parent. -/
def GoodCommit (anc : Nat → Nat → Bool) (c : CommitData) : Prop :=
  c.parents ≠ [] ∧ (∀ p ∈ c.parents, anc p c.id = true) ∧
    (∀ x, anc x c.id = true → x = c.id ∨ ∃ p ∈ c.parents, x = p ∨ anc x p = true)

/-- Goodness of an operation: only `add_head` constrains its argument. -/
def GoodOp (anc : Nat → Nat → Bool) : RepoOp → Prop
  | .addHead c => GoodCommit anc c
  | _ => True

theorem headsOf_pairwise (anc : Nat → Nat → Bool) (s : Finset Nat) :
    PairwiseNonAncestor anc (headsOf anc s) := by
  intro x hx y hy hne
  rw [headsOf, Finset.mem_filter] at hx hy
  exact hx.2 y hy.1 (fun h => hne h.symm)

theorem enforce_viewInv (ix : Index) (v : StoreView) :
    ViewInv ix (enforceViewInvariants ix v) := by
  unfold ViewInv enforceViewInvariants
  exact ⟨headsOf_pairwise _ _, headsOf_pairwise _ _⟩

/-- The fast path of `add_head` preserves pairwise non-ancestry when the
added commit has at least one parent, all of them current heads. -/
theorem addHead_fast_inv (anc : Nat → Nat → Bool) (htr : AncTrans anc)
    (c : CommitData) (hgc : GoodCommit anc c) (s : Finset Nat)
    (hs : PairwiseNonAncestor anc s) (hsub : ∀ p ∈ c.parents, p ∈ s) :
    PairwiseNonAncestor anc ((insert c.id s) \ c.parents.toFinset) := by
  intro x hx y hy hne
  rw [Finset.mem_sdiff, Finset.mem_insert] at hx hy
  obtain ⟨hx1, hxp⟩ := hx
  obtain ⟨hy1, hyp⟩ := hy
  rw [List.mem_toFinset] at hxp hyp
  obtain ⟨p0, hp0⟩ := List.exists_mem_of_ne_nil c.parents hgc.1
  by_cases hxc : x = c.id
  · subst hxc
    have hyS : y ∈ s := by
      rcases hy1 with h | h
      · exact absurd h.symm hne
      · exact h
    by_contra hanc
    have hanc2 : anc c.id y = true := by
      cases hab : anc c.id y with
      | true => rfl
      | false => exact absurd hab hanc
    have h1 : anc p0 c.id = true := hgc.2.1 p0 hp0
    have h2 : anc p0 y = true := htr _ _ _ h1 hanc2
    have hp0ney : p0 ≠ y := fun h => hyp (h ▸ hp0)
    have hfin := hs p0 (hsub p0 hp0) y hyS hp0ney
    rw [h2] at hfin
    exact Bool.noConfusion hfin
  · have hxS : x ∈ s := by
      rcases hx1 with h | h
      · exact absurd h hxc
      · exact h
    by_cases hyc : y = c.id
    · subst hyc
      by_contra hanc
      have hanc2 : anc x c.id = true := by
        cases hab : anc x c.id with
        | true => rfl
        | false => exact absurd hab hanc
      rcases hgc.2.2 x hanc2 with h | ⟨p, hp, hcase⟩
      · exact hxc h
      · rcases hcase with rfl | hancp
        · exact hxp hp
        · have hxnep : x ≠ p := fun h => hxp (h ▸ hp)
          have hfin := hs x hxS p (hsub p hp) hxnep
          rw [hancp] at hfin
          exact Bool.noConfusion hfin
    · have hyS : y ∈ s := by
        rcases hy1 with h | h
        · exact absurd h hyc
        · exact h
      exact hs x hxS y hyS hne

/-- The dirty-cell invariant: either the cell is dirty (the next observer
re-normalizes) or the cached view satisfies the head invariant. -/
def StInv (ix : Index) (st : MutableRepo) : Prop :=
  st.dirty = true ∨ ViewInv ix st.view

theorem applyOp_preserves (ix : Index) (htr : AncTrans ix.anc)
    (st st2 : MutableRepo) (op : RepoOp) (hop : GoodOp ix.anc op)
    (hI : StInv ix st) (happ : applyOp ix st op = Option.some st2) :
    StInv ix st2 := by
  cases op with
  | addHead c =>
    have hst2 : addHead st c = st2 := by
      injection happ
    subst hst2
    unfold addHead
    by_cases hfast : c.parents.all (fun p => decide (p ∈ st.view.headIds)) = true
    · rw [if_pos hfast]
      rcases hI with hd | hv
      · exact Or.inl hd
      · refine Or.inr ⟨?_, hv.2⟩
        refine addHead_fast_inv ix.anc htr c hop st.view.headIds hv.1 ?_
        intro p hp
        have hh := List.all_eq_true.mp hfast p hp
        simpa using hh
    · rw [if_neg hfast]
      exact Or.inl rfl
  | removeHead h =>
    have hst2 : ({ st with
        view := { st.view with headIds := st.view.headIds.erase h },
        dirty := true } : MutableRepo) = st2 := by
      injection happ
    rw [← hst2]
    exact Or.inl rfl
  | addPublicHead h =>
    have hst2 : ({ st with
        view := { st.view with publicHeadIds := insert h st.view.publicHeadIds },
        dirty := true } : MutableRepo) = st2 := by
      injection happ
    rw [← hst2]
    exact Or.inl rfl
  | removePublicHead h =>
    have hst2 : ({ st with
        view := { st.view with publicHeadIds := st.view.publicHeadIds.erase h },
        dirty := true } : MutableRepo) = st2 := by
      injection happ
    rw [← hst2]
    exact Or.inl rfl
  | setView v =>
    have hst2 : ({ st with view := v, dirty := true } : MutableRepo) = st2 := by
      injection happ
    rw [← hst2]
    exact Or.inl rfl
  | merge base other =>
    simp only [applyOp] at happ
    cases hm : mergeView ix
        { st with view := enforceViewInvariants ix st.view, dirty := false }
        base other with
    | none => rw [hm] at happ; simp at happ
    | some st3 =>
      rw [hm] at happ
      simp only [Option.map_some', Option.some.injEq] at happ
      rw [← happ]
      exact Or.inl rfl

theorem runOps_inv (ix : Index) (htr : AncTrans ix.anc) :
    ∀ (ops : List RepoOp) (st st2 : MutableRepo),
      (∀ op ∈ ops, GoodOp ix.anc op) → StInv ix st →
      runOps ix ops st = Option.some st2 → StInv ix st2 := by
  intro ops
  induction ops with
  | nil =>
    intro st st2 _ hI hrun
    have hrun2 : st = st2 := by
      simp only [runOps, List.foldlM_nil] at hrun
      injection hrun
    rw [← hrun2]
    exact hI
  | cons op rest ih =>
    intro st st2 hops hI hrun
    simp only [runOps, List.foldlM_cons] at hrun
    cases happ : applyOp ix st op with
    | none => rw [happ] at hrun; simp at hrun
    | some st1 =>
      rw [happ] at hrun
      simp only [Option.bind_eq_bind, Option.some_bind] at hrun
      have h1 : StInv ix st1 :=
        applyOp_preserves ix htr st st1 op (hops op (List.mem_cons_self _ _)) hI happ
      exact ih st1 st2 (fun o ho => hops o (List.mem_cons_of_mem _ ho)) h1 hrun

/-- **C1** (amended): for every `MutableRepo` starting from a clean view
satisfying the head invariant, after any sequence of `add_head`,
`remove_head`, `add_public_head`, `remove_public_head`, `set_view` and
`merge` operations — where each commit passed to `add_head` has at least
one parent consistent with the (transitive) index ancestry — the view
observed through `view()` has pairwise non-ancestor heads and pairwise
non-ancestor public heads. -/
theorem mutableRepo_view_inv (ix : Index) (ops : List RepoOp)
    (st0 stF : MutableRepo) (htr : AncTrans ix.anc)
    (hops : ∀ op ∈ ops, GoodOp ix.anc op)
    (_hd0 : st0.dirty = false) (hv0 : ViewInv ix st0.view)
    (hrun : runOps ix ops st0 = Option.some stF) :
    ViewInv ix (observeView ix stF) := by
  have hI := runOps_inv ix htr ops st0 stF hops (Or.inr hv0) hrun
  unfold observeView
  cases hdF : stF.dirty with
  | true => simp only [if_true]; exact enforce_viewInv ix stF.view
  | false =>
    simp only [Bool.false_eq_true, if_false]
    rcases hI with hd | hv
    · rw [hdF] at hd; exact absurd hd (by simp)
    · exact hv

/-- Concrete index for the head-invariant witness: commit 1 is an ancestor
of commit 2. -/
def wIx : Index := { entries := [], anc := fun a b => a == 1 && b == 2 }

/-- The commit added on top of head 1. -/
def wCommit : CommitData := { id := 2, parents := [1] }

/-- Clean starting state with single head 1. -/
def wSt0 : MutableRepo :=
  { view := { wcCommits := [], headIds := {1}, publicHeadIds := ∅ },
    dirty := false, rewritten := ∅, abandoned := ∅, rootId := 0 }

/-- State after adding commit 2 through the fast path. -/
def wStF : MutableRepo :=
  { view := { wcCommits := [], headIds := {2}, publicHeadIds := ∅ },
    dirty := false, rewritten := ∅, abandoned := ∅, rootId := 0 }

/-- Witness for the head-invariant theorem: one `add_head` on a clean
single-head view. -/
theorem mutableRepo_view_inv_witness :
    AncTrans wIx.anc ∧ GoodOp wIx.anc (RepoOp.addHead wCommit)
      ∧ wSt0.dirty = false ∧ ViewInv wIx wSt0.view
      ∧ runOps wIx [RepoOp.addHead wCommit] wSt0 = Option.some wStF
      ∧ ViewInv wIx (observeView wIx wStF) := by
  have htr : AncTrans wIx.anc := by
    intro a b c h1 h2
    simp only [wIx, Bool.and_eq_true, beq_iff_eq] at h1 h2
    omega
  have hgc : GoodOp wIx.anc (RepoOp.addHead wCommit) := by
    refine ⟨by decide, ?_, ?_⟩
    · intro p hp
      simp only [wCommit, List.mem_singleton] at hp
      subst hp
      decide
    · intro x hx
      simp only [wIx, wCommit, Bool.and_eq_true, beq_iff_eq] at hx
      right
      exact ⟨1, by simp [wCommit], Or.inl hx.1⟩
  refine ⟨htr, hgc, rfl, by decide, by decide, ?_⟩
  refine mutableRepo_view_inv wIx [RepoOp.addHead wCommit] wSt0 wStF htr ?_
    rfl (by decide) (by decide)
  intro op hop
  rw [List.mem_singleton] at hop
  rw [hop]
  exact hgc

/-- Counterexample index: commit 0 is an ancestor of commit 1 and nothing
else is related. -/
def cexIx : Index := { entries := [], anc := fun a b => a == 0 && b == 1 }

/-- A parentless commit (as the synthetic root is) that is an ancestor of
the existing head. -/
def cexCommit : CommitData := { id := 0, parents := [] }

/-- Clean starting state with single head 1 (a descendant of commit 0). -/
def cexSt0 : MutableRepo :=
  { view := { wcCommits := [], headIds := {1}, publicHeadIds := ∅ },
    dirty := false, rewritten := ∅, abandoned := ∅, rootId := 99 }

/-- State after `add_head(commit 0)`: the fast path fires (the commit has
no parents, so all of them are vacuously heads), the view stays clean, and
head 0 is an ancestor of head 1. -/
def cexStF : MutableRepo :=
  { view := { wcCommits := [], headIds := {0, 1}, publicHeadIds := ∅ },
    dirty := false, rewritten := ∅, abandoned := ∅, rootId := 99 }

/-- **C1** counterexample: with a transitive index consistent with the
commit parents, a clean invariant-satisfying view, and a single `add_head`
of a parentless commit that is an ancestor of the current head, `view()`
observes a head set in which one head is an ancestor of another — the
claim as stated fails on the `add_head` fast path. -/
theorem mutableRepo_view_inv_counterexample :
    AncTrans cexIx.anc
    ∧ (∀ p ∈ cexCommit.parents, cexIx.anc p cexCommit.id = true)
    ∧ (∀ x, cexIx.anc x cexCommit.id = true → x = cexCommit.id ∨
        ∃ p ∈ cexCommit.parents, x = p ∨ cexIx.anc x p = true)
    ∧ cexSt0.dirty = false ∧ ViewInv cexIx cexSt0.view
    ∧ runOps cexIx [RepoOp.addHead cexCommit] cexSt0 = Option.some cexStF
    ∧ ¬ ViewInv cexIx (observeView cexIx cexStF) := by
  refine ⟨?_, ?_, ?_, rfl, by decide, by decide, by decide⟩
  · intro a b c h1 h2
    simp only [cexIx, Bool.and_eq_true, beq_iff_eq] at h1 h2
    omega
  · intro p hp
    simp [cexCommit] at hp
  · intro x hx
    simp only [cexIx, cexCommit, Bool.and_eq_true, beq_iff_eq] at hx
    omega

/-- The error from attempts to rewrite the root commit. -/
inductive RewriteRootCommit where
  | mk
deriving DecidableEq

/-- `MutableRepo::set_wc_commit`: reject the root commit id, otherwise set
the working-copy pointer.  The state is returned alongside the result. -/
def setWcCommit (st : MutableRepo) (workspaceId commitId : Nat) :
    MutableRepo × Except RewriteRootCommit Unit :=
  if commitId = st.rootId then (st, Except.error RewriteRootCommit.mk)
  else
    ({ st with view := { st.view with
        wcCommits := wcSet st.view.wcCommits workspaceId commitId } },
      Except.ok ())

/-- **C8**: `set_wc_commit` with the root commit id fails with
`RewriteRootCommit` and leaves the view (indeed the whole state) unchanged,
and `record_rewritten_commit` / `record_abandoned_commit` likewise fail
when given the root commit id (their `assert_ne!` is modelled as a failing
`Option`). -/
theorem rootCommit_guards (st : MutableRepo) (ws newId : Nat) :
    setWcCommit st ws st.rootId = (st, Except.error RewriteRootCommit.mk)
    ∧ recordRewrittenCommit st st.rootId newId = Option.none
    ∧ recordAbandonedCommit st st.rootId = Option.none := by
  refine ⟨?_, ?_, ?_⟩ <;>
    simp [setWcCommit, recordRewrittenCommit, recordAbandonedCommit]

/-- `MutableRepo::has_rewrites`. -/
def hasRewrites (st : MutableRepo) : Prop :=
  ¬ (st.rewritten = ∅ ∧ st.abandoned = ∅)

instance (st : MutableRepo) : Decidable (hasRewrites st) := by
  unfold hasRewrites
  infer_instance

/-- `MutableRepo::rebase_descendants`: when nothing was recorded the
optimization returns `Ok(0)` immediately; otherwise the descendant rebaser
runs (the rebaser lives in `crate::rewrite`, outside `src/`, and is taken
as an arbitrary function). -/
def rebaseDescendants (rebaser : MutableRepo → Option (MutableRepo × Nat))
    (st : MutableRepo) : Option (MutableRepo × Nat) :=
  if hasRewrites st then rebaser st else Option.some (st, 0)

/-- **C10**: with no rewritten and no abandoned commits recorded,
`rebase_descendants` returns `Ok(0)` and leaves the whole state — view,
index, and rewrite/abandon records — unchanged, never invoking the
rebaser. -/
theorem rebaseDescendants_noop (st : MutableRepo)
    (h1 : st.rewritten = ∅) (h2 : st.abandoned = ∅)
    (rebaser : MutableRepo → Option (MutableRepo × Nat)) :
    rebaseDescendants rebaser st = Option.some (st, 0) := by
  simp [rebaseDescendants, hasRewrites, h1, h2]

/-- A fresh state with no rewrite records. -/
def emptySt : MutableRepo :=
  { view := { wcCommits := [], headIds := ∅, publicHeadIds := ∅ },
    dirty := false, rewritten := ∅, abandoned := ∅, rootId := 0 }

/-- Witness: on a record-free state, `rebase_descendants` is a no-op even
under a rebaser that would fail. -/
theorem rebaseDescendants_noop_witness :
    rebaseDescendants (fun _ => Option.none) emptySt = Option.some (emptySt, 0) :=
  rebaseDescendants_noop emptySt (by decide) (by decide) (fun _ => Option.none)

theorem find?_filter_of_imp {α : Type} (p q : α → Bool)
    (h : ∀ a, p a = true → q a = true) :
    ∀ l : List α, (l.filter q).find? p = l.find? p := by
  intro l
  induction l with
  | nil => rfl
  | cons x xs ih =>
    cases hq : q x with
    | true =>
      rw [List.filter_cons, if_pos hq]
      cases hp : p x with
      | true => simp only [List.find?, hp]
      | false => simp only [List.find?, hp]; exact ih
    | false =>
      rw [List.filter_cons, if_neg (by simp [hq])]
      have hp : p x = false := by
        cases hpx : p x with
        | false => rfl
        | true => rw [h x hpx] at hq; exact Bool.noConfusion hq
      simp only [List.find?, hp]
      exact ih

theorem wcGet_wcSet (m : List (Nat × Nat)) (k v k2 : Nat) :
    wcGet (wcSet m k v) k2 = if k2 = k then Option.some v else wcGet m k2 := by
  by_cases h : k2 = k
  · subst h
    simp [wcGet, wcSet, List.find?]
  · rw [if_neg h]
    unfold wcSet wcGet wcRemove
    have hhead : ((k, v).1 == k2) = false := by
      simp only [beq_eq_false_iff_ne, ne_eq]
      exact fun hh => h (hh.symm)
    simp only [List.find?, hhead]
    rw [find?_filter_of_imp _ _ ?_]
    intro a ha
    simp only [beq_iff_eq] at ha
    simp only [Bool.not_eq_true', beq_eq_false_iff_ne, ne_eq]
    rw [ha]
    exact h

theorem wcGet_wcRemove (m : List (Nat × Nat)) (k k2 : Nat) :
    wcGet (wcRemove m k) k2 = if k2 = k then Option.none else wcGet m k2 := by
  by_cases h : k2 = k
  · subst h
    rw [if_pos rfl]
    unfold wcGet wcRemove
    have hfind : (m.filter (fun e => !(e.1 == k2))).find? (fun e => e.1 == k2)
        = Option.none := by
      rw [List.find?_eq_none]
      intro e he
      have := List.of_mem_filter he
      simp only [Bool.not_eq_true', beq_eq_false_iff_ne, ne_eq] at this
      simp only [Bool.not_eq_true, beq_eq_false_iff_ne, ne_eq]
      exact this
    rw [hfind]
    rfl
  · rw [if_neg h]
    unfold wcGet wcRemove
    rw [find?_filter_of_imp _ _ ?_]
    intro a ha
    simp only [beq_iff_eq] at ha
    simp only [Bool.not_eq_true', beq_eq_false_iff_ne, ne_eq]
    rw [ha]
    exact h

theorem wcGet_some_mem {m : List (Nat × Nat)} {k b : Nat}
    (h : wcGet m k = Option.some b) : (k, b) ∈ m := by
  unfold wcGet at h
  cases hf : m.find? (fun e => e.1 == k) with
  | none => rw [hf] at h; simp at h
  | some e =>
    rw [hf] at h
    simp only [Option.map_some', Option.some.injEq] at h
    have hmem := List.mem_of_find?_eq_some hf
    have hkey := List.find?_some hf
    simp only [beq_iff_eq] at hkey
    have : e = (k, b) := by
      cases e with
      | mk e1 e2 =>
        simp only at hkey h
        rw [hkey, h]
    rw [← this]
    exact hmem

theorem wcGet_none_of_no_key {m : List (Nat × Nat)} {k : Nat}
    (h : ∀ e ∈ m, e.1 ≠ k) : wcGet m k = Option.none := by
  unfold wcGet
  have hf : m.find? (fun e => e.1 == k) = Option.none := by
    rw [List.find?_eq_none]
    intro e he
    simp only [Bool.not_eq_true, beq_eq_false_iff_ne, ne_eq]
    exact h e he
  rw [hf]
  rfl

/-- The three-way merge value of one workspace, as the claim states it:
keep self when other is unchanged or agrees with self; take other when self
is unchanged; remove when other removed. -/
def mergeWcValue (s : Option Nat) (b : Nat) (o : Option Nat) : Option Nat :=
  if o = Option.some b ∨ o = s then s
  else
    match o with
    | Option.some oc => if s = Option.some b then Option.some oc else s
    | Option.none => Option.none

theorem mergeWcStep_other_key (otherM acc : List (Nat × Nat)) (e : Nat × Nat)
    (k : Nat) (hk : k ≠ e.1) :
    wcGet (mergeWcStep otherM acc e) k = wcGet acc k := by
  unfold mergeWcStep
  by_cases h1 : wcGet otherM e.1 = Option.some e.2 ∨ wcGet otherM e.1 = wcGet acc e.1
  · rw [if_pos h1]
  · rw [if_neg h1]
    cases ho : wcGet otherM e.1 with
    | some oc =>
      dsimp only
      by_cases h2 : wcGet acc e.1 = Option.some e.2
      · rw [if_pos h2, wcGet_wcSet, if_neg hk]
      · rw [if_neg h2]
    | none =>
      dsimp only
      rw [wcGet_wcRemove, if_neg hk]

theorem addWcStep_other_key (baseM acc : List (Nat × Nat)) (e : Nat × Nat)
    (k : Nat) (hk : k ≠ e.1) :
    wcGet (addWcStep baseM acc e) k = wcGet acc k := by
  unfold addWcStep
  by_cases h1 : wcGet acc e.1 = Option.none ∧ wcGet baseM e.1 = Option.none
  · rw [if_pos h1, wcGet_wcSet, if_neg hk]
  · rw [if_neg h1]

theorem foldl_mergeWc_notin (otherM : List (Nat × Nat)) :
    ∀ (l acc : List (Nat × Nat)) (k : Nat), (∀ e ∈ l, e.1 ≠ k) →
      wcGet (l.foldl (mergeWcStep otherM) acc) k = wcGet acc k := by
  intro l
  induction l with
  | nil => intro acc k _; rfl
  | cons e rest ih =>
    intro acc k hk
    rw [List.foldl_cons]
    rw [ih _ k (fun f hf => hk f (List.mem_cons_of_mem _ hf))]
    exact mergeWcStep_other_key otherM acc e k
      (fun h => hk e (List.mem_cons_self _ _) h.symm)

theorem foldl_addWc_notin (baseM : List (Nat × Nat)) :
    ∀ (l acc : List (Nat × Nat)) (k : Nat), (∀ e ∈ l, e.1 ≠ k) →
      wcGet (l.foldl (addWcStep baseM) acc) k = wcGet acc k := by
  intro l
  induction l with
  | nil => intro acc k _; rfl
  | cons e rest ih =>
    intro acc k hk
    rw [List.foldl_cons]
    rw [ih _ k (fun f hf => hk f (List.mem_cons_of_mem _ hf))]
    exact addWcStep_other_key baseM acc e k
      (fun h => hk e (List.mem_cons_self _ _) h.symm)

theorem mergeWcStep_self_key (otherM acc : List (Nat × Nat)) (k b : Nat) :
    wcGet (mergeWcStep otherM acc (k, b)) k =
      mergeWcValue (wcGet acc k) b (wcGet otherM k) := by
  unfold mergeWcStep mergeWcValue
  dsimp only
  by_cases h1 : wcGet otherM k = Option.some b ∨ wcGet otherM k = wcGet acc k
  · rw [if_pos h1, if_pos h1]
  · rw [if_neg h1, if_neg h1]
    cases ho : wcGet otherM k with
    | some oc =>
      dsimp only
      by_cases h2 : wcGet acc k = Option.some b
      · rw [if_pos h2, wcGet_wcSet, if_pos rfl, if_pos h2]
      · rw [if_neg h2, if_neg h2]
    | none =>
      dsimp only
      rw [wcGet_wcRemove, if_pos rfl]

theorem addWcStep_self_key (baseM acc : List (Nat × Nat)) (k oc : Nat) :
    wcGet (addWcStep baseM acc (k, oc)) k =
      if wcGet acc k = Option.none ∧ wcGet baseM k = Option.none then
        Option.some oc
      else wcGet acc k := by
  unfold addWcStep
  by_cases h1 : wcGet acc k = Option.none ∧ wcGet baseM k = Option.none
  · rw [if_pos h1, if_pos h1, wcGet_wcSet, if_pos rfl]
  · rw [if_neg h1, if_neg h1]

theorem foldl_mergeWc_get (otherM : List (Nat × Nat)) :
    ∀ (l acc : List (Nat × Nat)) (k b : Nat),
      (l.map (·.1)).Nodup → (k, b) ∈ l →
      wcGet (l.foldl (mergeWcStep otherM) acc) k =
        mergeWcValue (wcGet acc k) b (wcGet otherM k) := by
  intro l
  induction l with
  | nil => intro acc k b _ hmem; simp at hmem
  | cons e rest ih =>
    intro acc k b hnd hmem
    rw [List.map_cons, List.nodup_cons] at hnd
    rw [List.foldl_cons]
    rcases List.mem_cons.mp hmem with rfl | hmem2
    · have hnotin : ∀ f ∈ rest, f.1 ≠ (k, b).1 := by
        intro f hf hcon
        exact hnd.1 (hcon ▸ List.mem_map_of_mem (·.1) hf)
      rw [foldl_mergeWc_notin otherM rest _ (k, b).1 hnotin]
      exact mergeWcStep_self_key otherM acc (k, b).1 (k, b).2
    · have hkne : k ≠ e.1 := by
        intro hcon
        exact hnd.1 (hcon ▸ List.mem_map_of_mem (·.1) hmem2)
      rw [ih _ k b hnd.2 hmem2]
      rw [mergeWcStep_other_key otherM acc e k hkne]

theorem foldl_addWc_get (baseM : List (Nat × Nat)) :
    ∀ (l acc : List (Nat × Nat)) (k oc : Nat),
      (l.map (·.1)).Nodup → (k, oc) ∈ l →
      wcGet (l.foldl (addWcStep baseM) acc) k =
        if wcGet acc k = Option.none ∧ wcGet baseM k = Option.none then
          Option.some oc
        else wcGet acc k := by
  intro l
  induction l with
  | nil => intro acc k oc _ hmem; simp at hmem
  | cons e rest ih =>
    intro acc k oc hnd hmem
    rw [List.map_cons, List.nodup_cons] at hnd
    rw [List.foldl_cons]
    rcases List.mem_cons.mp hmem with rfl | hmem2
    · have hnotin : ∀ f ∈ rest, f.1 ≠ (k, oc).1 := by
        intro f hf hcon
        exact hnd.1 (hcon ▸ List.mem_map_of_mem (·.1) hf)
      rw [foldl_addWc_notin baseM rest _ (k, oc).1 hnotin]
      exact addWcStep_self_key baseM acc (k, oc).1 (k, oc).2
    · have hkne : k ≠ e.1 := by
        intro hcon
        exact hnd.1 (hcon ▸ List.mem_map_of_mem (·.1) hmem2)
      rw [ih _ k oc hnd.2 hmem2]
      rw [addWcStep_other_key baseM acc e k hkne]

theorem foldlM_view_pres {α : Type} (g : MutableRepo → α → Option MutableRepo)
    (hg : ∀ (s : MutableRepo) (a : α) (s2 : MutableRepo),
      g s a = Option.some s2 → s2.view = s.view ∧ s2.rootId = s.rootId) :
    ∀ (l : List α) (s s2 : MutableRepo),
      l.foldlM g s = Option.some s2 → s2.view = s.view ∧ s2.rootId = s.rootId := by
  intro l
  induction l with
  | nil =>
    intro s s2 h
    have h2 : s = s2 := by
      simp only [List.foldlM_nil] at h
      injection h
    rw [h2]
    exact ⟨rfl, rfl⟩
  | cons a rest ih =>
    intro s s2 h
    simp only [List.foldlM_cons] at h
    cases hg1 : g s a with
    | none => rw [hg1] at h; simp at h
    | some s1 =>
      rw [hg1] at h
      simp only [Option.bind_eq_bind, Option.some_bind] at h
      have h1 := hg s a s1 hg1
      have h2 := ih s1 s2 h
      exact ⟨h2.1.trans h1.1, h2.2.trans h1.2⟩

theorem recordRewrittenCommit_pres (s : MutableRepo) (o n : Nat)
    (s2 : MutableRepo) (h : recordRewrittenCommit s o n = Option.some s2) :
    s2.view = s.view ∧ s2.rootId = s.rootId := by
  unfold recordRewrittenCommit at h
  by_cases hr : o = s.rootId
  · rw [if_pos hr] at h; simp at h
  · rw [if_neg hr] at h
    have h2 : ({ s with rewritten := insert (o, n) s.rewritten } : MutableRepo)
        = s2 := by injection h
    rw [← h2]
    exact ⟨rfl, rfl⟩

theorem recordAbandonedCommit_pres (s : MutableRepo) (o : Nat)
    (s2 : MutableRepo) (h : recordAbandonedCommit s o = Option.some s2) :
    s2.view = s.view ∧ s2.rootId = s.rootId := by
  unfold recordAbandonedCommit at h
  by_cases hr : o = s.rootId
  · rw [if_pos hr] at h; simp at h
  · rw [if_neg hr] at h
    have h2 : ({ s with abandoned := insert o s.abandoned } : MutableRepo)
        = s2 := by injection h
    rw [← h2]
    exact ⟨rfl, rfl⟩

theorem recordRewrites_pres (ix : Index) (st : MutableRepo)
    (oldHeads newHeads : List Nat) (st2 : MutableRepo)
    (h : recordRewrites ix st oldHeads newHeads = Option.some st2) :
    st2.view = st.view ∧ st2.rootId = st.rootId := by
  unfold recordRewrites at h
  by_cases he : (walkRevs ix oldHeads newHeads).isEmpty = true
  · rw [if_pos he] at h
    have h2 : st = st2 := by injection h
    rw [← h2]
    exact ⟨rfl, rfl⟩
  · rw [if_neg he] at h
    dsimp only at h
    split at h
    · simp at h
    · next st1 heq =>
      have hp1 := foldlM_view_pres _
        (fun s p s2 hh => recordRewrittenCommit_pres s p.1 p.2 s2 hh) _ _ _ heq
      have hp2 := foldlM_view_pres _
        (fun s r s2 hh => recordAbandonedCommit_pres s r.commitId s2 hh) _ _ _ h
      exact ⟨hp2.1.trans hp1.1, hp2.2.trans hp1.2⟩

theorem mergeView_wcCommits (ix : Index) (st : MutableRepo)
    (base other : StoreView) (st2 : MutableRepo)
    (hm : mergeView ix st base other = Option.some st2) :
    st2.view.wcCommits =
      mergeWcCommits st.view.wcCommits base.wcCommits other.wcCommits := by
  unfold mergeView at hm
  dsimp only at hm
  split at hm
  · simp at hm
  · next stA heqA =>
    split at hm
    · simp at hm
    · next stB heqB =>
      have hA := recordRewrites_pres _ _ _ _ _ heqA
      have hB := recordRewrites_pres _ _ _ _ _ heqB
      have hst2 : ({ stB with view := { stB.view with
          headIds := stB.view.headIds ∪ (other.headIds \ base.headIds) } } :
          MutableRepo) = st2 := by injection hm
      rw [← hst2]
      show stB.view.wcCommits = _
      rw [hB.1, hA.1]

theorem no_key_of_wcGet_none {m : List (Nat × Nat)} {k : Nat}
    (h : wcGet m k = Option.none) : ∀ e ∈ m, e.1 ≠ k := by
  intro e he hcon
  unfold wcGet at h
  cases hf : m.find? (fun f => f.1 == k) with
  | some f => rw [hf] at h; simp at h
  | none =>
    rw [List.find?_eq_none] at hf
    have hcon2 := hf e he
    simp [hcon] at hcon2

/-- **C4**: in `merge_view`, for every workspace of the base view the
working-copy pointer is three-way merged (keep self when other is
unchanged or agrees; take other when only other changed; remove when other
removed, even if self changed), and every workspace present only in
`other` is added with its pointer. -/
theorem mergeView_wc_spec (ix : Index) (st st2 : MutableRepo)
    (base other : StoreView)
    (hb : (base.wcCommits.map (·.1)).Nodup)
    (ho : (other.wcCommits.map (·.1)).Nodup)
    (hm : mergeView ix st base other = Option.some st2) (ws : Nat) :
    wcGet st2.view.wcCommits ws =
      (match wcGet base.wcCommits ws with
       | Option.some b =>
         mergeWcValue (wcGet st.view.wcCommits ws) b (wcGet other.wcCommits ws)
       | Option.none =>
         match wcGet st.view.wcCommits ws, wcGet other.wcCommits ws with
         | Option.none, Option.some oc => Option.some oc
         | s, _ => s) := by
  rw [mergeView_wcCommits ix st base other st2 hm]
  unfold mergeWcCommits
  cases hbase : wcGet base.wcCommits ws with
  | some b =>
    dsimp only
    have hmem : (ws, b) ∈ base.wcCommits := wcGet_some_mem hbase
    have h1 := foldl_mergeWc_get other.wcCommits base.wcCommits
      st.view.wcCommits ws b hb hmem
    cases hoget : wcGet other.wcCommits ws with
    | some oc =>
      have hmem2 : (ws, oc) ∈ other.wcCommits := wcGet_some_mem hoget
      rw [foldl_addWc_get base.wcCommits other.wcCommits _ ws oc ho hmem2]
      rw [hbase]
      rw [if_neg (by simp)]
      rw [h1, hoget]
    | none =>
      have hnoto : ∀ e ∈ other.wcCommits, e.1 ≠ ws := no_key_of_wcGet_none hoget
      rw [foldl_addWc_notin base.wcCommits other.wcCommits _ ws hnoto]
      rw [h1, hoget]
  | none =>
    dsimp only
    have hnotb : ∀ e ∈ base.wcCommits, e.1 ≠ ws := no_key_of_wcGet_none hbase
    have h1 := foldl_mergeWc_notin other.wcCommits base.wcCommits
      st.view.wcCommits ws hnotb
    cases hoget : wcGet other.wcCommits ws with
    | some oc =>
      have hmem2 : (ws, oc) ∈ other.wcCommits := wcGet_some_mem hoget
      rw [foldl_addWc_get base.wcCommits other.wcCommits _ ws oc ho hmem2]
      rw [h1, hbase]
      cases hs : wcGet st.view.wcCommits ws with
      | none => rw [if_pos ⟨rfl, rfl⟩]
      | some sv =>
        rw [if_neg (by simp)]
    | none =>
      have hnoto : ∀ e ∈ other.wcCommits, e.1 ≠ ws := no_key_of_wcGet_none hoget
      rw [foldl_addWc_notin base.wcCommits other.wcCommits _ ws hnoto]
      rw [h1]
      cases hs : wcGet st.view.wcCommits ws with
      | none => rfl
      | some sv => rfl

/-- Index with no entries and empty ancestry, for the merge witness. -/
def wIx2 : Index := { entries := [], anc := fun _ _ => false }

/-- Self state: workspace 1 points at commit 10 (unchanged from base). -/
def wSelf : MutableRepo :=
  { view := { wcCommits := [(1, 10)], headIds := ∅, publicHeadIds := ∅ },
    dirty := false, rewritten := ∅, abandoned := ∅, rootId := 0 }

/-- Base view: workspace 1 points at commit 10. -/
def wBase : StoreView :=
  { wcCommits := [(1, 10)], headIds := ∅, publicHeadIds := ∅ }

/-- Other view: workspace 1 moved to commit 20, workspace 2 added at 30. -/
def wOther : StoreView :=
  { wcCommits := [(1, 20), (2, 30)], headIds := ∅, publicHeadIds := ∅ }

/-- The merged state: other's move is taken and other's addition kept. -/
def wMerged : MutableRepo :=
  { view := { wcCommits := [(2, 30), (1, 20)], headIds := ∅, publicHeadIds := ∅ },
    dirty := false, rewritten := ∅, abandoned := ∅, rootId := 0 }

/-- Witness for the working-copy merge theorem at workspace 2 (added only
by `other`). -/
theorem mergeView_wc_spec_witness :
    wcGet wMerged.view.wcCommits 2 =
      (match wcGet wBase.wcCommits 2 with
       | Option.some b =>
         mergeWcValue (wcGet wSelf.view.wcCommits 2) b (wcGet wOther.wcCommits 2)
       | Option.none =>
         match wcGet wSelf.view.wcCommits 2, wcGet wOther.wcCommits 2 with
         | Option.none, Option.some oc => Option.some oc
         | s, _ => s) :=
  mergeView_wc_spec wIx2 wSelf wMerged wBase wOther (by decide) (by decide)
    (by decide) 2

theorem walkRevs_mem (ix : Index) (hds roots : List Nat) (e : IndexEntry) :
    e ∈ walkRevs ix hds roots ↔
      e ∈ ix.entries ∧ (∃ h ∈ hds, reach ix e.commitId h = true) ∧
        ∀ r ∈ roots, reach ix e.commitId r = false := by
  unfold walkRevs
  rw [List.mem_filter]
  constructor
  · rintro ⟨h1, h2⟩
    simp only [Bool.and_eq_true, Bool.not_eq_true', List.any_eq_true,
      List.any_eq_false] at h2
    refine ⟨h1, h2.1, ?_⟩
    intro r hr
    have := h2.2 r hr
    simpa using this
  · rintro ⟨h1, h2, h3⟩
    refine ⟨h1, ?_⟩
    simp only [Bool.and_eq_true, Bool.not_eq_true', List.any_eq_true,
      List.any_eq_false]
    refine ⟨h2, ?_⟩
    intro r hr
    simp [h3 r hr]

theorem foldlM_recordRewritten :
    ∀ (pairs : List (Nat × Nat)) (st : MutableRepo),
      (∀ p ∈ pairs, p.1 ≠ st.rootId) →
      ∃ st2, pairs.foldlM
          (fun s (p : Nat × Nat) => recordRewrittenCommit s p.1 p.2) st =
          Option.some st2 ∧
        st2.rewritten = st.rewritten ∪ pairs.toFinset ∧
        st2.abandoned = st.abandoned ∧ st2.view = st.view ∧
        st2.rootId = st.rootId := by
  intro pairs
  induction pairs with
  | nil =>
    intro st _
    exact ⟨st, rfl, by simp, rfl, rfl, rfl⟩
  | cons p rest ih =>
    intro st hroot
    have hp : p.1 ≠ st.rootId := hroot p (List.mem_cons_self _ _)
    have hstep : recordRewrittenCommit st p.1 p.2 =
        Option.some { st with rewritten := insert (p.1, p.2) st.rewritten } := by
      unfold recordRewrittenCommit
      rw [if_neg hp]
    obtain ⟨st2, hfold, hrw, hab, hv, hr⟩ :=
      ih { st with rewritten := insert (p.1, p.2) st.rewritten }
        (fun q hq => hroot q (List.mem_cons_of_mem _ hq))
    refine ⟨st2, ?_, ?_, hab, hv, hr⟩
    · rw [List.foldlM_cons, hstep]
      simp only [Option.bind_eq_bind, Option.some_bind]
      exact hfold
    · rw [hrw]
      show insert (p.1, p.2) st.rewritten ∪ rest.toFinset = _
      rw [List.toFinset_cons, Finset.insert_union, Finset.union_insert]

theorem foldlM_recordAbandoned :
    ∀ (l : List IndexEntry) (st : MutableRepo),
      (∀ r ∈ l, r.commitId ≠ st.rootId) →
      ∃ st2, l.foldlM (fun s r => recordAbandonedCommit s r.commitId) st =
          Option.some st2 ∧
        st2.abandoned = st.abandoned ∪ (l.map (·.commitId)).toFinset ∧
        st2.rewritten = st.rewritten ∧ st2.view = st.view ∧
        st2.rootId = st.rootId := by
  intro l
  induction l with
  | nil =>
    intro st _
    exact ⟨st, rfl, by simp, rfl, rfl, rfl⟩
  | cons r rest ih =>
    intro st hroot
    have hp : r.commitId ≠ st.rootId := hroot r (List.mem_cons_self _ _)
    have hstep : recordAbandonedCommit st r.commitId =
        Option.some { st with abandoned := insert r.commitId st.abandoned } := by
      unfold recordAbandonedCommit
      rw [if_neg hp]
    obtain ⟨st2, hfold, hab, hrw, hv, hr⟩ :=
      ih { st with abandoned := insert r.commitId st.abandoned }
        (fun q hq => hroot q (List.mem_cons_of_mem _ hq))
    refine ⟨st2, ?_, ?_, hrw, hv, hr⟩
    · rw [List.foldlM_cons, hstep]
      simp only [Option.bind_eq_bind, Option.some_bind]
      exact hfold
    · rw [hab]
      show insert r.commitId st.abandoned ∪ (rest.map (·.commitId)).toFinset = _
      rw [List.map_cons, List.toFinset_cons, Finset.insert_union,
        Finset.union_insert]

/-- **C3**: `record_rewrites(old_heads, new_heads)` records as rewritten
exactly the pairs `(old, new)` where `old` is reachable from `old_heads`
but not `new_heads`, `new` is reachable from `new_heads` but not
`old_heads`, and both share a change id; and records as abandoned exactly
the removed-side commits whose change id appears on no added-side commit.
The last conjunct characterizes the modelled walk in terms of
reachability. -/
theorem recordRewrites_spec (ix : Index) (st : MutableRepo)
    (oldHeads newHeads : List Nat)
    (hroot : ∀ e ∈ walkRevs ix oldHeads newHeads, e.commitId ≠ st.rootId) :
    ∃ st2, recordRewrites ix st oldHeads newHeads = Option.some st2 ∧
      (∀ o n : Nat, (o, n) ∈ st2.rewritten ↔ (o, n) ∈ st.rewritten ∨
        ∃ eo ∈ walkRevs ix oldHeads newHeads,
          ∃ en ∈ walkRevs ix newHeads oldHeads,
            eo.commitId = o ∧ en.commitId = n ∧ eo.changeId = en.changeId) ∧
      (∀ o : Nat, o ∈ st2.abandoned ↔ o ∈ st.abandoned ∨
        ∃ eo ∈ walkRevs ix oldHeads newHeads, eo.commitId = o ∧
          ∀ en ∈ walkRevs ix newHeads oldHeads, en.changeId ≠ eo.changeId) ∧
      (∀ (e : IndexEntry) (hds roots : List Nat), e ∈ walkRevs ix hds roots ↔
        e ∈ ix.entries ∧ (∃ h ∈ hds, reach ix e.commitId h = true) ∧
          ∀ r ∈ roots, reach ix e.commitId r = false) := by
  unfold recordRewrites
  by_cases he : (walkRevs ix oldHeads newHeads).isEmpty = true
  · rw [if_pos he]
    have hemp : walkRevs ix oldHeads newHeads = [] := by
      cases hw : walkRevs ix oldHeads newHeads with
      | nil => rfl
      | cons a l => rw [hw] at he; simp [List.isEmpty] at he
    refine ⟨st, rfl, ?_, ?_, fun e hds roots => walkRevs_mem ix hds roots e⟩
    · intro o n
      simp [hemp]
    · intro o
      simp [hemp]
  · rw [if_neg he]
    dsimp only
    have hpair_root : ∀ p ∈ (walkRevs ix newHeads oldHeads).flatMap (fun a =>
        ((walkRevs ix oldHeads newHeads).filter
          (fun r => r.changeId == a.changeId)).map
          (fun r => (r.commitId, a.commitId))), p.1 ≠ st.rootId := by
      intro p hp
      rw [List.mem_flatMap] at hp
      obtain ⟨a, _, hp2⟩ := hp
      rw [List.mem_map] at hp2
      obtain ⟨r, hr, heq⟩ := hp2
      have hrmem := (List.mem_filter.mp hr).1
      have h1 : r.commitId = p.1 := congrArg Prod.fst heq
      rw [← h1]
      exact hroot r hrmem
    obtain ⟨st1, hf1, hrw1, hab1, _, hr1⟩ :=
      foldlM_recordRewritten _ st hpair_root
    rw [hf1]
    dsimp only
    have hab_root : ∀ r ∈ (walkRevs ix oldHeads newHeads).filter
        (fun r => !((walkRevs ix newHeads oldHeads).any
          (fun a => a.changeId == r.changeId))), r.commitId ≠ st1.rootId := by
      intro r hr
      rw [hr1]
      exact hroot r (List.mem_filter.mp hr).1
    obtain ⟨st2, hf2, hab2, hrw2, _, _⟩ :=
      foldlM_recordAbandoned _ st1 hab_root
    refine ⟨st2, hf2, ?_, ?_, fun e hds roots => walkRevs_mem ix hds roots e⟩
    · intro o n
      rw [hrw2, hrw1, Finset.mem_union, List.mem_toFinset]
      refine or_congr Iff.rfl ?_
      constructor
      · intro hp
        rw [List.mem_flatMap] at hp
        obtain ⟨a, ha, hp2⟩ := hp
        rw [List.mem_map] at hp2
        obtain ⟨r, hr, heq⟩ := hp2
        have hrf := List.mem_filter.mp hr
        have h1 : r.commitId = o := congrArg Prod.fst heq
        have h2 : a.commitId = n := congrArg Prod.snd heq
        have h3 : r.changeId = a.changeId := by
          have hb := hrf.2
          simpa using hb
        exact ⟨r, hrf.1, a, ha, h1, h2, h3⟩
      · rintro ⟨eo, heo, en, hen, h1, h2, h3⟩
        rw [List.mem_flatMap]
        refine ⟨en, hen, ?_⟩
        rw [List.mem_map]
        refine ⟨eo, List.mem_filter.mpr ⟨heo, by simp [h3]⟩, ?_⟩
        rw [h1, h2]
    · intro o
      rw [hab2, hab1, Finset.mem_union, List.mem_toFinset]
      refine or_congr Iff.rfl ?_
      constructor
      · intro hm
        rw [List.mem_map] at hm
        obtain ⟨r, hr, heq⟩ := hm
        have hrf := List.mem_filter.mp hr
        refine ⟨r, hrf.1, heq, ?_⟩
        intro en hen hcon
        have hb := hrf.2
        simp only [Bool.not_eq_true', List.any_eq_false] at hb
        have h2 := hb en hen
        simp [hcon] at h2
      · rintro ⟨eo, heo, h1, h2⟩
        rw [List.mem_map]
        refine ⟨eo, List.mem_filter.mpr ⟨heo, ?_⟩, h1⟩
        simp only [Bool.not_eq_true', List.any_eq_false]
        intro en hen
        simp only [beq_iff_eq]
        exact h2 en hen

/-- Index for the rewrite-recording witness: commit 1 (change 100),
commit 2 (change 100, its rewrite), commit 3 (change 101, abandoned). -/
def c3Ix : Index :=
  { entries := [⟨1, 100⟩, ⟨2, 100⟩, ⟨3, 101⟩], anc := fun _ _ => false }

/-- Witness for `record_rewrites` with old heads `[1, 3]` and new head
`[2]`: commit 1 is rewritten to 2 (shared change id) and 3 is abandoned. -/
theorem recordRewrites_spec_witness :
    (∀ e ∈ walkRevs c3Ix [1, 3] [2], e.commitId ≠ emptySt.rootId) ∧
    (∃ st2, recordRewrites c3Ix emptySt [1, 3] [2] = Option.some st2 ∧
      (∀ o n : Nat, (o, n) ∈ st2.rewritten ↔ (o, n) ∈ emptySt.rewritten ∨
        ∃ eo ∈ walkRevs c3Ix [1, 3] [2], ∃ en ∈ walkRevs c3Ix [2] [1, 3],
          eo.commitId = o ∧ en.commitId = n ∧ eo.changeId = en.changeId) ∧
      (∀ o : Nat, o ∈ st2.abandoned ↔ o ∈ emptySt.abandoned ∨
        ∃ eo ∈ walkRevs c3Ix [1, 3] [2], eo.commitId = o ∧
          ∀ en ∈ walkRevs c3Ix [2] [1, 3], en.changeId ≠ eo.changeId) ∧
      (∀ (e : IndexEntry) (hds roots : List Nat), e ∈ walkRevs c3Ix hds roots ↔
        e ∈ c3Ix.entries ∧ (∃ h ∈ hds, reach c3Ix e.commitId h = true) ∧
          ∀ r ∈ roots, reach c3Ix e.commitId r = false)) :=
  ⟨by decide, recordRewrites_spec c3Ix emptySt [1, 3] [2] (by decide)⟩

/-! ### Revset alias expansion (`src/lib/src/revset.rs`) -/

/-- The `RevsetParseErrorKind` variants produced by alias expansion. -/
inductive PEKind where
  | badAliasExpansion (name : String)
  | recursiveAlias (name : String)
deriving DecidableEq

/-- `RevsetParseError` as alias expansion builds it: a kind, optionally
wrapping the original error through the `origin` chain
(`with_span_and_origin`). -/
inductive PError where
  | base (kind : PEKind)
  | wrapped (kind : PEKind) (origin : PError)
deriving DecidableEq

/-- The outermost kind of the error. -/
def PError.kind : PError → PEKind
  | .base k => k
  | .wrapped k _ => k

/-- The innermost kind of the origin chain. -/
def PError.innermost : PError → PEKind
  | .base k => k
  | .wrapped _ e => e.innermost

/-- Modelled from the spec: an alias definition after the grammar parse
(the `revset.pest` grammar file is not under `src/`); the claim needs
symbols and union chains only. -/
inductive Syn where
  | sym (name : String)
  | union (a b : Syn)
deriving DecidableEq

/-- The `symbol_aliases` map of `RevsetAliasesMap`. -/
def aliasGet (am : List (String × Syn)) (n : String) : Option Syn :=
  (am.find? (fun e => e.1 == n)).map (·.2)

/-- `parse_symbol_rule` plus `ParseState::with_alias_expanding` over
pre-parsed alias definitions: a symbol naming an alias already on the
expanding stack fails with `RecursiveAlias`; otherwise its definition is
parsed with the alias id pushed, and an inner error is wrapped in
`BadAliasExpansion` of the enclosing alias.  The recursion is fuel-bounded
(`Option.none` = out of fuel); the stack only grows while distinct aliases
are expanding, so any fuel beyond the alias count suffices. -/
def expandSyn (am : List (String × Syn)) :
    Nat → Syn → List String → Option (Except PError Expr)
  | 0, _, _ => Option.none
  | fuel + 1, .sym name, stack =>
    match aliasGet am name with
    | Option.some defn =>
      if name ∈ stack then
        Option.some (Except.error (PError.base (.recursiveAlias name)))
      else
        match expandSyn am fuel defn (name :: stack) with
        | Option.none => Option.none
        | Option.some (Except.ok e) => Option.some (Except.ok e)
        | Option.some (Except.error err) =>
          Option.some (Except.error
            (PError.wrapped (.badAliasExpansion name) err))
    | Option.none => Option.some (Except.ok (Expr.symbol name))
  | fuel + 1, .union a b, stack =>
    match expandSyn am fuel a stack with
    | Option.none => Option.none
    | Option.some (Except.error e) => Option.some (Except.error e)
    | Option.some (Except.ok ea) =>
      match expandSyn am fuel b stack with
      | Option.none => Option.none
      | Option.some (Except.error e) => Option.some (Except.error e)
      | Option.some (Except.ok eb) => Option.some (Except.ok (.union ea eb))

/-- The aliases `A = B`, `B = b|C`, `C = c|A` of the claim. -/
def c7Aliases : List (String × Syn) :=
  [("A", .sym "B"), ("B", .union (.sym "b") (.sym "C")),
    ("C", .union (.sym "c") (.sym "A"))]

/-- **C7**: re-expanding an alias already on the expanding stack fails with
`RecursiveAlias`; and with `A = B`, `B = b|C`, `C = c|A`, parsing `A`
yields an error chain whose innermost kind is `RecursiveAlias "A"`, the
outer layers being `BadAliasExpansion` of the enclosing aliases. -/
theorem aliasRecursion_spec :
    (∀ (am : List (String × Syn)) (fuel : Nat) (name : String)
        (stack : List String) (defn : Syn),
      aliasGet am name = Option.some defn → name ∈ stack →
      expandSyn am (fuel + 1) (.sym name) stack =
        Option.some (Except.error (PError.base (.recursiveAlias name))))
    ∧ (∃ e : PError, expandSyn c7Aliases 10 (.sym "A") [] =
        Option.some (Except.error e) ∧
        e.innermost = .recursiveAlias "A" ∧
        e = PError.wrapped (.badAliasExpansion "A")
          (PError.wrapped (.badAliasExpansion "B")
            (PError.wrapped (.badAliasExpansion "C")
              (PError.base (.recursiveAlias "A"))))) := by
  constructor
  · intro am fuel name stack defn hget hmem
    simp only [expandSyn]
    rw [hget]
    dsimp only
    rw [if_pos hmem]
  · exact ⟨PError.wrapped (.badAliasExpansion "A")
      (PError.wrapped (.badAliasExpansion "B")
        (PError.wrapped (.badAliasExpansion "C")
          (PError.base (.recursiveAlias "A")))), rfl, rfl, rfl⟩

/-- Witness: an alias whose id is already on the stack fails immediately. -/
theorem aliasRecursion_spec_witness :
    expandSyn c7Aliases 1 (.sym "A") ["A"] =
      Option.some (Except.error (PError.base (.recursiveAlias "A"))) :=
  aliasRecursion_spec.1 c7Aliases 0 "A" ["A"] (.sym "B") rfl (by decide)

end JJSpec
